import Mathlib

/-!
Verification development for the frescobaldi music-font registry
(`frescobaldi_app/fonts/musicfonts.py`) and the VCS document tracker
(`frescobaldi_app/vcs/manager.py`).

The Python code is shallowly embedded: filesystem state is a function from
path strings to entries, Python dicts become association lists (insertion
order preserved, update-in-place like `dict`), fallible code returns
`Except`, and in-place mutation becomes explicit state passing.
-/

set_option autoImplicit false

/-- Model of one filesystem path's state: a regular file, a symbolic link
(recording whether following the link reaches an existing file), an existing
path that is neither — such as a directory (`os.path.exists` is true for it
but `Path.is_file()` is false) — or nothing. -/
inductive FSEntry where
  | regular
  | symlinkTo (targetExists : Bool)
  | directory
  | absent
deriving DecidableEq, Repr

/-- Filesystem state: what each path holds. -/
def FS := String → FSEntry

/-- Model of `Path.is_symlink()`. -/
def fsIsSymlink (fs : FS) (p : String) : Bool :=
  match fs p with
  | .symlinkTo _ => true
  | _ => false

/-- Model of `os.path.exists` / `Path.exists()` (follows symlinks). -/
def fsExists (fs : FS) (p : String) : Bool :=
  match fs p with
  | .regular => true
  | .symlinkTo ok => ok
  | .directory => true
  | .absent => false

/-- Model of `Path.is_file()` (follows symlinks; in this development all
existing link targets are files).  Unlike `os.path.exists`, it is false for an
existing path that is not a regular file, such as a directory. -/
def fsIsFile (fs : FS) (p : String) : Bool :=
  match fs p with
  | .regular => true
  | .symlinkTo ok => ok
  | .directory => false
  | .absent => false

/-- Overwrite one path's entry (used for symlink creation, copying, unlinking). -/
def fsSet (fs : FS) (p : String) (e : FSEntry) : FS :=
  fun q => if q = p then e else fs q

/-- The three font types recognised by the code (`otf|svg|woff`). -/
inductive FontType where
  | otf
  | svg
  | woff
deriving DecidableEq, Repr

/-- The `MusicFontStatus` enum of the source. -/
inductive MusicFontStatus where
  | FILE
  | MISSING_FILE
  | LINK
  | BROKEN_LINK
  | MISSING
deriving DecidableEq, Repr

/-- `MusicFontFile`: one font file within a family: its path, the lazily
memoized status (`None` until first queried), and the install flag. -/
structure MusicFontFile where
  file : String
  status : Option MusicFontStatus
  install : Bool
deriving DecidableEq, Repr

/-! ### Association lists modelling Python dicts -/

/-- First-occurrence lookup in an association list (Python `dict` access). -/
def lookupA {α : Type} : List (String × α) → String → Option α
  | [], _ => none
  | (k, v) :: rest, key => if k = key then some v else lookupA rest key

/-- Python `dict` assignment: update the entry in place if the key is present
(keeping its position), otherwise append at the end (insertion order). -/
def insertA {α : Type} : List (String × α) → String → α → List (String × α)
  | [], key, v => [(key, v)]
  | (k, w) :: rest, key, v =>
      if k = key then (key, v) :: rest else (k, w) :: insertA rest key v

/-- Python `dict.pop(key, None)`: drop the first entry with the given key. -/
def eraseA {α : Type} : List (String × α) → String → List (String × α)
  | [], _ => []
  | (k, w) :: rest, key => if k = key then rest else (k, w) :: eraseA rest key

/-! ### Filename parsing

The source regex is
`(?P<family>.*)-(?P<size>brace|\d\d)\.(?P<type>otf|svg|woff)$`
used with `re.match`.  We model it on `List Char` with Python semantics:
`.` matches any character except a newline, `\d` is read as an ASCII decimal
digit (the theorems about it are stated for ASCII inputs), and `$` matches at
the end of the string or just before a single trailing newline.  `.*` is
greedy: the longest family prefix admitting a valid remainder wins. -/

/-- The characters of a font-type suffix. -/
def typeChars : FontType → List Char
  | .otf => ['o', 't', 'f']
  | .svg => ['s', 'v', 'g']
  | .woff => ['w', 'o', 'f', 'f']

/-- The characters of the special size `brace`. -/
def braceChars : List Char := ['b', 'r', 'a', 'c', 'e']

/-- A valid size group: `brace` or two (ASCII) decimal digits. -/
def isValidSize (s : List Char) : Bool :=
  (s == braceChars) ||
    (match s with
     | [d1, d2] => d1.isDigit && d2.isDigit
     | _ => false)

/-- Split the size group and the following literal dot: `brace|\d\d` then `\.`. -/
def sizeSplit : List Char → Option (List Char × List Char)
  | 'b' :: 'r' :: 'a' :: 'c' :: 'e' :: '.' :: rest => some (braceChars, rest)
  | d1 :: d2 :: '.' :: rest =>
      if d1.isDigit && d2.isDigit then some ([d1, d2], rest) else none
  | _ => none

/-- Split the type group: `otf|svg|woff`. -/
def typeSplit : List Char → Option (FontType × List Char)
  | 'o' :: 't' :: 'f' :: rest => some (.otf, rest)
  | 's' :: 'v' :: 'g' :: rest => some (.svg, rest)
  | 'w' :: 'o' :: 'f' :: 'f' :: rest => some (.woff, rest)
  | _ => none

/-- Python `$`: end of string, or just before one trailing newline. -/
def tailOk : List Char → Bool
  | [] => true
  | ['\n'] => true
  | _ => false

/-- Match the remainder after the family group:
`-(brace|\d\d)\.(otf|svg|woff)$`. -/
def suffixParse (l : List Char) : Option (List Char × FontType) :=
  match l with
  | '-' :: rest =>
      (sizeSplit rest).bind (fun p =>
        (typeSplit p.2).bind (fun q =>
          if tailOk q.2 then some (p.1, q.1) else none))
  | _ => none

/-- The full anchored match: greedy `.*` family (no newline), then the suffix.
Longest family first, backtracking to a shorter one, as the regex engine does. -/
def pmatch : List Char → Option (List Char × List Char × FontType)
  | [] => none
  | c :: rest =>
      if c = '\n' then (suffixParse (c :: rest)).map (fun p => ([], p.1, p.2))
      else
        match pmatch rest with
        | some (f, sz, ty) => some (c :: f, sz, ty)
        | none => (suffixParse (c :: rest)).map (fun p => ([], p.1, p.2))

/-- Model of `os.path.basename`: everything after the last `/`. -/
def basenameChars (s : List Char) : List Char :=
  (s.reverse.takeWhile (fun c => c ≠ '/')).reverse

/-- The suffix matcher with a strict end anchor (no trailing-newline
allowance): used to express "the string IS of the documented form". -/
def suffixParseStrict (l : List Char) : Option (List Char × FontType) :=
  match l with
  | '-' :: rest =>
      (sizeSplit rest).bind (fun p =>
        (typeSplit p.2).bind (fun q =>
          if q.2 = [] then some (p.1, q.1) else none))
  | _ => none

/-- Decidable check that a string is literally of the documented form
`<family>-<size>.<type>` (for some split into a family prefix and a valid
size/type suffix). -/
def isFormed (l : List Char) : Bool :=
  (List.range (l.length + 1)).any (fun i => (suffixParseStrict (l.drop i)).isSome)

/-! ### MusicFontFamily -/

/-- `MusicFontFamily`: the established family name (set by the first added
file) and the per-type dict from size strings to font files (`_files`). -/
structure MusicFontFamily where
  family : Option String
  otfFiles : List (String × MusicFontFile)
  svgFiles : List (String × MusicFontFile)
  woffFiles : List (String × MusicFontFile)
deriving DecidableEq, Repr

/-- The empty family (constructor `MusicFontFamily()` with no file). -/
def MusicFontFamily.empty : MusicFontFamily :=
  { family := none, otfFiles := [], svgFiles := [], woffFiles := [] }

/-- `self._files[type]`. -/
def MusicFontFamily.getFiles (fam : MusicFontFamily) : FontType → List (String × MusicFontFile)
  | .otf => fam.otfFiles
  | .svg => fam.svgFiles
  | .woff => fam.woffFiles

/-- Replace one type's dict. -/
def MusicFontFamily.setFiles (fam : MusicFontFamily) (t : FontType)
    (l : List (String × MusicFontFile)) : MusicFontFamily :=
  match t with
  | .otf => { fam with otfFiles := l }
  | .svg => { fam with svgFiles := l }
  | .woff => { fam with woffFiles := l }

/-- Iteration order of `self._files`: the dict literal lists otf, svg, woff. -/
def fontTypes : List FontType := [.otf, .svg, .woff]

/-- `MusicFontFamily.parse_filename`: match the regex against the basename. -/
def MusicFontFamily.parse_filename (file : String) : Option (List Char × List Char × FontType) :=
  pmatch (basenameChars file.toList)

/-- `MusicFontFamily.check_file`: existence check, then filename parse.
Returns `(family, type, size)` or the exception message. -/
def MusicFontFamily.check_file (fs : FS) (file : String) :
    Except String (String × FontType × String) :=
  if fsExists fs file = false then
    .error (file ++ " does not point to an existing file or link")
  else
    match MusicFontFamily.parse_filename file with
    | none => .error ("File " ++ file ++ " does not appear to be a valid font file")
    | some (f, sz, ty) => .ok (String.mk f, ty, String.mk sz)

/-- `MusicFontFamily.add`: insert a fresh `MusicFontFile` for `(type, size)`,
silently overwriting an existing entry. -/
def MusicFontFamily.add (fam : MusicFontFamily) (t : FontType) (size : String)
    (file : String) : MusicFontFamily :=
  fam.setFiles t (insertA (fam.getFiles t) size ⟨file, none, false⟩)

/-- `MusicFontFamily.add_file`: validate the file, refuse files of a different
family, establish the family name if not yet set, then `add`. -/
def MusicFontFamily.add_file (fam : MusicFontFamily) (fs : FS) (file : String) :
    Except String MusicFontFamily :=
  match MusicFontFamily.check_file fs file with
  | .error e => .error e
  | .ok (family, t, size) =>
      match fam.family with
      | some estab =>
          if estab ≠ family then
            .error ("File " ++ file ++ " does not belong to font family " ++ estab)
          else
            .ok (fam.add t size file)
      | none => .ok (({ fam with family := some family }).add t size file)

/-- The pure physical-status resolution of `MusicFontFamily.status`:
symlink first (dangling gives `BROKEN_LINK`), then regular file, then absent. -/
def resolveStatus (fs : FS) (p : String) : MusicFontStatus :=
  if fsIsSymlink fs p then
    if fsExists fs p then .LINK else .BROKEN_LINK
  else if fsIsFile fs p then .FILE
  else .MISSING_FILE

/-- `MusicFontFamily.status`: `MISSING` for an absent slot; otherwise the
memoized status, resolving and storing it on first query.  Returns the status
together with the updated family (the source mutates `font.status`). -/
def MusicFontFamily.status (fam : MusicFontFamily) (t : FontType) (size : String)
    (fs : FS) : MusicFontStatus × MusicFontFamily :=
  match lookupA (fam.getFiles t) size with
  | none => (.MISSING, fam)
  | some font =>
      match font.status with
      | some st => (st, fam)
      | none =>
          let st := resolveStatus fs font.file
          (st, fam.setFiles t (insertA (fam.getFiles t) size { font with status := some st }))

/-- `MusicFontFamily.has_brace`. -/
def MusicFontFamily.has_brace (fam : MusicFontFamily) (t : FontType) : Bool :=
  (lookupA (fam.getFiles t) "brace").isSome

/-- `MusicFontFamily.walk`: all `(type, size, font)` entries, types in dict
order, sizes in insertion order. -/
def MusicFontFamily.walk (fam : MusicFontFamily) : List (FontType × String × MusicFontFile) :=
  fontTypes.flatMap (fun t => (fam.getFiles t).map (fun p => (t, p.1, p.2)))

/-- `MusicFontFamily.flag_all_for_install`: mark every file `install = True`. -/
def MusicFontFamily.flag_all_for_install (fam : MusicFontFamily) : MusicFontFamily :=
  { fam with
    otfFiles := fam.otfFiles.map (fun p => (p.1, { p.2 with install := true }))
    svgFiles := fam.svgFiles.map (fun p => (p.1, { p.2 with install := true }))
    woffFiles := fam.woffFiles.map (fun p => (p.1, { p.2 with install := true })) }

/-- Set the install flag of one present slot (`file.install = True`). -/
def MusicFontFamily.setInstallTrue (fam : MusicFontFamily) (t : FontType)
    (size : String) : MusicFontFamily :=
  match lookupA (fam.getFiles t) size with
  | none => fam
  | some font => fam.setFiles t (insertA (fam.getFiles t) size { font with install := true })

/-- One iteration of the `flag_for_install` loop body for size key `size` of
type `t`: query own status (memoizing), and if it is FILE or LINK also query
the target family's status (memoizing there); flag when the target slot is not
FILE or LINK. -/
def flagStep (fs : FS) (t : FontType) (acc : MusicFontFamily × MusicFontFamily)
    (size : String) : MusicFontFamily × MusicFontFamily :=
  let stp := acc.1.status t size fs
  if stp.1 = .FILE ∨ stp.1 = .LINK then
    let tstp := acc.2.status t size fs
    if tstp.1 = .FILE ∨ tstp.1 = .LINK then (stp.2, tstp.2)
    else ((stp.2).setInstallTrue t size, tstp.2)
  else (stp.2, acc.2)

/-- The outer loop of `flag_for_install`: for each type in order, loop over
that type's size keys. -/
def flagTypesFold (fs : FS) (L : List FontType)
    (P : MusicFontFamily × MusicFontFamily) : MusicFontFamily × MusicFontFamily :=
  L.foldl (fun acc t => (((acc.1.getFiles t).map Prod.fst).foldl (flagStep fs t) acc)) P

/-- `MusicFontFamily.flag_for_install(target_family)`: loop over own types and
sizes, flagging files that are physically usable here but not in the target.
Returns the updated pair (both families' memoized statuses evolve). -/
def MusicFontFamily.flag_for_install (self target : MusicFontFamily) (fs : FS) :
    MusicFontFamily × MusicFontFamily :=
  flagTypesFold fs fontTypes (self, target)

/-! ### AbstractMusicFontList: the registry of families

The registry's `_families` dict is modelled as an association list from
family names to `MusicFontFamily` values (the GUI item model of the source is
presentation-only and out of scope). -/

/-- The `_families` mapping of an `AbstractMusicFontList`. -/
def Fams := List (String × MusicFontFamily)

deriving instance DecidableEq for Fams

/-- `AbstractMusicFontList.add_file`: validate, then create the family (via the
`MusicFontFamily(file)` constructor) or add to the existing one. -/
def famsAddFile (fams : Fams) (fs : FS) (file : String) : Except String Fams :=
  match MusicFontFamily.check_file fs file with
  | .error e => .error e
  | .ok (family, t, size) =>
      match lookupA fams family with
      | none =>
          match MusicFontFamily.empty.add_file fs file with
          | .error e => .error e
          | .ok fam => .ok (insertA fams family fam)
      | some fam => .ok (insertA fams family (fam.add t size file))

/-- The `try: add_file except: pass` of `add_tree`: failures are ignored. -/
def famsAddFileSilent (fams : Fams) (fs : FS) (file : String) : Fams :=
  match famsAddFile fams fs file with
  | .ok fams' => fams'
  | .error _ => fams

/-- `AbstractMusicFontList.add_tree`: add every file found by the directory
walk, silently skipping non-font files.  The walk itself is abstracted by the
list of file paths it produces (in walk order). -/
def famsAddTree (fams : Fams) (fs : FS) (paths : List String) : Fams :=
  paths.foldl (fun acc p => famsAddFileSilent acc fs p) fams

/-- Insertion of a string into a sorted list (for `sorted`). -/
def insSorted (x : String) : List String → List String
  | [] => [x]
  | y :: rest => if x ≤ y then x :: y :: rest else y :: insSorted x rest

/-- Python `sorted` on strings. -/
def sortStrings (l : List String) : List String :=
  l.foldr insSorted []

/-- `AbstractMusicFontList.families()`: the sorted family names. -/
def famsFamilies (fams : Fams) : List String :=
  sortStrings (fams.map Prod.fst)

/-- `AbstractMusicFontList.family(name)`. -/
def famsFamily (fams : Fams) (name : String) : Option MusicFontFamily :=
  lookupA fams name

/-- The observable status of the slot `(name, t, size)` of a registry:
`none` when the family itself is absent, otherwise the value that
`family(name).status(t, size)` returns against filesystem `fs`. -/
def famsStatusVal (fams : Fams) (name : String) (t : FontType) (size : String)
    (fs : FS) : Option MusicFontStatus :=
  (lookupA fams name).map (fun fam => (fam.status t size fs).fst)

/-- One entry of `AbstractMusicFontList.walk()`. -/
structure RegEntry where
  famName : String
  ftype : FontType
  size : String
  font : MusicFontFile
deriving DecidableEq, Repr

/-- `AbstractMusicFontList.walk()`: iterate the family names in dict order,
looking each family up, and yield all its font files. -/
def famsWalk (fams : Fams) : List RegEntry :=
  (fams.map Prod.fst).flatMap (fun name =>
    match lookupA fams name with
    | none => []
    | some fam => fam.walk.map (fun e => ⟨name, e.1, e.2.1, e.2.2⟩))

/-! ### MusicFontRepo -/

/-- `MusicFontRepo`: a scanned source repository plus its derived
`installable_fonts` registry. -/
structure MusicFontRepo where
  root : String
  fams : Fams
  installable_fonts : Fams

/-- The first loop of `MusicFontRepo.flag_for_install`: for every family of
the repo, flag everything when the installed registry has no family of that
name, else delegate to `MusicFontFamily.flag_for_install` (which also updates
the installed family's memoized statuses). -/
def flagPhaseStep (fs : FS) (acc : Fams × Fams) (name : String) : Fams × Fams :=
  match lookupA acc.1 name with
  | none => acc
  | some repo_family =>
      match lookupA acc.2 name with
      | none => (insertA acc.1 name repo_family.flag_all_for_install, acc.2)
      | some target_family =>
          (insertA acc.1 name (repo_family.flag_for_install target_family fs).1,
           insertA acc.2 name (repo_family.flag_for_install target_family fs).2)

def flagPhase (repo installed : Fams) (fs : FS) : Fams × Fams :=
  (repo.map Prod.fst).foldl (flagPhaseStep fs) (repo, installed)

/-- The files flagged for install, in `walk()` order. -/
def flaggedFiles (fams : Fams) : List String :=
  (famsWalk fams).filterMap (fun e => if e.font.install then some e.font.file else none)

/-- Sequential `add_file` over a path list; the first failure aborts
(`flag_for_install` has no exception handler around this loop). -/
def famsAddFiles (fams : Fams) (fs : FS) : List String → Except String Fams
  | [] => .ok fams
  | p :: rest =>
      match famsAddFile fams fs p with
      | .error e => .error e
      | .ok fams' => famsAddFiles fams' fs rest

/-- `MusicFontRepo.flag_for_install(installed)`: clear `installable_fonts`,
run the flagging loop, then re-ingest every flagged file by path into the
fresh `installable_fonts` registry. -/
def MusicFontRepo.flag_for_install (repo : MusicFontRepo) (installed : Fams)
    (fs : FS) : Except String (MusicFontRepo × Fams) :=
  match famsAddFiles [] fs (flaggedFiles (flagPhase repo.fams installed fs).1) with
  | .error e => .error e
  | .ok inst_fonts =>
      .ok
        ({ repo with
            fams := (flagPhase repo.fams installed fs).1
            installable_fonts := inst_fonts },
          (flagPhase repo.fams installed fs).2)

/-! ### InstalledMusicFonts -/

/-- Model of `os.path.join` for two components (a path starting with `/` is
absolute and discards the left component, as in Python). -/
def osJoin (a b : String) : String :=
  if b.data.head? = some '/' then b
  else if a = "" ∨ a.data.getLast? = some '/' then a ++ b
  else a ++ "/" ++ b

/-- Model of `os.path.basename`. -/
def osBasename (s : String) : String :=
  String.mk (basenameChars s.toList)

/-- Outcome of an `os.symlink` attempt, decided by the host. -/
inductive SymlinkOutcome where
  | ok
  | notImplemented
  | osError (msg : String)
deriving DecidableEq, Repr

/-- The host operating system: outcomes of symlink/copy/unlink attempts
(`none` meaning success for copy and unlink). -/
structure OSModel where
  symlinkRes : String → String → SymlinkOutcome
  copyRes : String → String → Option String
  unlinkRes : String → Option String

/-- Exceptions raised by install/remove: `MusicFontPermissionException`
or another `MusicFontException` (from `add_file`). -/
inductive MFErr where
  | permission (msg : String)
  | fontError (msg : String)
deriving DecidableEq, Repr

/-- `InstalledMusicFonts`: the installed registry rooted at
`<datadir>/fonts`. -/
structure InstalledMusicFonts where
  font_root : String
  fams : Fams

/-- `InstalledMusicFonts.font_dir`: otf gets its own directory, svg and woff
share one. -/
def InstalledMusicFonts.font_dir (inst : InstalledMusicFonts) (t : FontType) : String :=
  osJoin inst.font_root (if t = .otf then "otf" else "svg")

/-- The target path computed by `install`:
`os.path.join(font_root, font_dir(type), basename(font_file))`. -/
def InstalledMusicFonts.installTarget (inst : InstalledMusicFonts) (t : FontType)
    (font_file : String) : String :=
  osJoin (osJoin inst.font_root (inst.font_dir t)) (osBasename font_file)

/-- `InstalledMusicFonts.install` with `copy=True`: copy the bytes, wrapping
an OS error in `MusicFontPermissionException`, then register the target. -/
def InstalledMusicFonts.installCopy (inst : InstalledMusicFonts) (fs : FS)
    (os : OSModel) (t : FontType) (font_file : String) :
    Except MFErr (InstalledMusicFonts × FS) :=
  let target := inst.installTarget t font_file
  match os.copyRes font_file target with
  | some e => .error (.permission ("Font installation failed:\n" ++ e))
  | none =>
      let fs' := fsSet fs target .regular
      match famsAddFile inst.fams fs' target with
      | .error e => .error (.fontError e)
      | .ok fams' => .ok ({ inst with fams := fams' }, fs')

/-- `InstalledMusicFonts.install` with the default `copy=False`: attempt a
symlink; on `NotImplementedError` fall back to copy mode (after which the
outer call registers the target once more); on `OSError` raise a
`MusicFontPermissionException`; on success register the target. -/
def InstalledMusicFonts.install (inst : InstalledMusicFonts) (fs : FS)
    (os : OSModel) (t : FontType) (font_file : String) :
    Except MFErr (InstalledMusicFonts × FS) :=
  let target := inst.installTarget t font_file
  match os.symlinkRes font_file target with
  | .osError e => .error (.permission ("Font installation failed:\n" ++ e))
  | .notImplemented =>
      match inst.installCopy fs os t font_file with
      | .error e => .error e
      | .ok (inst2, fs2) =>
          match famsAddFile inst2.fams fs2 target with
          | .error e => .error (.fontError e)
          | .ok fams' => .ok ({ inst2 with fams := fams' }, fs2)
  | .ok =>
      let fs' := fsSet fs target (.symlinkTo (fsExists fs font_file))
      match famsAddFile inst.fams fs' target with
      | .error e => .error (.fontError e)
      | .ok fams' => .ok ({ inst with fams := fams' }, fs')

/-- Result of `InstalledMusicFonts.remove`: success, refusal
(`MusicFontFileRemoveException` message), permission failure, or the
`AttributeError` crash on a name with no family.  The registry and filesystem
reached at the raise point are carried along (Python mutates in place). -/
inductive RemoveOutcome where
  | ok (fams : Fams) (fs : FS)
  | refused (msg : String) (fams : Fams) (fs : FS)
  | permission (msg : String) (fams : Fams) (fs : FS)
  | internalError (fams : Fams) (fs : FS)

/-- Unlink the collected links in order; the first OS error aborts, keeping
the unlinks already performed. -/
def unlinkAll (os : OSModel) : List String → FS → Except (String × FS) FS
  | [], fs => .ok fs
  | p :: rest, fs =>
      match os.unlinkRes p with
      | some e => .error (e, fs)
      | none => unlinkAll os rest (fsSet fs p .absent)

/-- All registered paths of a family, in walk order. -/
def familyPaths (fam : MusicFontFamily) : List String :=
  fam.walk.map (fun e => e.2.2.file)

/-- The `links` list built by the partition loop of `remove`: the registered
paths that are symlinks on the filesystem. -/
def linkPathsOf (fam : MusicFontFamily) (fs : FS) : List String :=
  (fam.walk.filter (fun e => fsIsSymlink fs e.2.2.file)).map (fun e => e.2.2.file)

/-- The `files` list built by the partition loop of `remove`: the registered
paths that are not symlinks. -/
def regularPathsOf (fam : MusicFontFamily) (fs : FS) : List String :=
  (fam.walk.filter (fun e => !(fsIsSymlink fs e.2.2.file))).map (fun e => e.2.2.file)

/-- The loop of `InstalledMusicFonts.remove` over the selected family names:
partition each family's files into symlinks and non-links; any non-link file
refuses that family's removal (raising with the offending paths joined by
newlines); otherwise unlink all links and drop the family. -/
def removeGo (os : OSModel) : Fams → FS → List String → RemoveOutcome
  | fams, fs, [] => .ok fams fs
  | fams, fs, name :: rest =>
      match lookupA fams name with
      | none => .internalError fams fs
      | some fam =>
          let links := linkPathsOf fam fs
          let files := regularPathsOf fam fs
          if files = [] then
            match unlinkAll os links fs with
            | .error (e, fs') => .permission ("Font removal failed:\n" ++ e) fams fs'
            | .ok fs' => removeGo os (eraseA fams name) fs' rest
          else .refused (String.intercalate "\n" files) fams fs

/-- `InstalledMusicFonts.remove(indexes)`; the model-index inputs are
abstracted by the family names they carry (`index.data()`). -/
def InstalledMusicFonts.remove (inst : InstalledMusicFonts) (fs : FS)
    (os : OSModel) (names : List String) : RemoveOutcome :=
  removeGo os inst.fams fs names

/-! ### VCSManager (`vcs/manager.py`)

`GitHelper.extract_vcs_path` and `gitrepo.RepoManager` live in modules that
are not part of the sources here; the resolvers are therefore parameters
`(path → (root, relative))` with an empty root meaning "not under this VCS",
and the `track_document` / `untrack_document` calls of the repo manager are
recorded as emitted actions. -/

/-- A VCS path resolver: `extract_vcs_path`. -/
def Resolver := String → String × String

/-- A `RepoManager` call made by the manager. -/
inductive VcsAction where
  | trackDoc (view root relative : String)
  | untrackDoc (root relative : String)
deriving DecidableEq, Repr

/-- The second half of `slotDocumentUrlChanged`: resolve the new url and track
it (`none` models the `KeyError` when the document is not in
`_doc_view_map`); hg and svn hits are detected but not tracked (TODO stubs). -/
def trackNewUrl (git hg svn : Resolver) (docViewMap : List (String × String))
    (doc url : String) : Option (List VcsAction) :=
  let (r, rel) := git url
  if r ≠ "" then
    match lookupA docViewMap doc with
    | none => none
    | some view => some [.trackDoc view r rel]
  else
    let (r2, _) := hg url
    if r2 ≠ "" then some []
    else
      let (r3, _) := svn url
      if r3 ≠ "" then some []
      else some []

/-- `VCSManager.slotDocumentUrlChanged(doc, url, old)`: when the old url is
non-empty and resolves under some VCS, untrack (git) or do nothing (hg/svn
stubs) and return; only otherwise fall through to resolving and tracking the
new url. -/
def slotDocumentUrlChanged (git hg svn : Resolver)
    (docViewMap : List (String × String)) (doc url old : String) :
    Option (List VcsAction) :=
  if old ≠ "" then
    let (r, rel) := git old
    if r ≠ "" then some [.untrackDoc r rel]
    else
      let (r2, _) := hg old
      if r2 ≠ "" then some []
      else
        let (r3, _) := svn old
        if r3 ≠ "" then some []
        else trackNewUrl git hg svn docViewMap doc url
  else trackNewUrl git hg svn docViewMap doc url

/-- Concrete family for witnesses: one otf slot backed by a live symlink. -/
def famEx1 : MusicFontFamily :=
  { family := some "foo"
    otfFiles := [("11", ⟨"/fonts/foo-11.otf", none, false⟩)]
    svgFiles := []
    woffFiles := [] }

/-- Concrete filesystem for witnesses. -/
def fsEx1 : FS := fun p =>
  if p = "/fonts/foo-11.otf" then FSEntry.symlinkTo true else FSEntry.absent

/-- Filesystem holding a directory whose name parses as a font file. -/
def fsDir : FS := fun p =>
  if p = "/fonts/dir-11.otf" then FSEntry.directory else FSEntry.absent

/-- The family that registering that directory produces. -/
def famDir : MusicFontFamily :=
  { family := some "dir"
    otfFiles := [("11", ⟨"/fonts/dir-11.otf", none, false⟩)]
    svgFiles := []
    woffFiles := [] }

/-- Resolver used in the VCS counterexample: two distinct git repositories. -/
def gitResolverEx : Resolver := fun p =>
  if p = "/repoA/f.ly" then ("/repoA", "f.ly")
  else if p = "/repoB/g.ly" then ("/repoB", "g.ly")
  else ("", "")

/-- Resolver that never matches (hg and svn in the example). -/
def emptyResolver : Resolver := fun _ => ("", "")

/-- Installed registry for the install witness. -/
def instEx : InstalledMusicFonts := { font_root := "/ly/fonts", fams := [] }

/-- Filesystem for the install witness: one regular source font file. -/
def fsEx2 : FS := fun p => if p = "/src/foo-11.otf" then FSEntry.regular else FSEntry.absent

/-- Host where symlinking succeeds. -/
def osExOk : OSModel :=
  { symlinkRes := fun _ _ => .ok, copyRes := fun _ _ => none, unlinkRes := fun _ => none }

/-- Family `a`: one real (regular) otf file. -/
def famA : MusicFontFamily :=
  { family := some "a"
    otfFiles := [("11", ⟨"/f/a-11.otf", none, false⟩)]
    svgFiles := []
    woffFiles := [] }

/-- Family `b`: one live symlink. -/
def famB : MusicFontFamily :=
  { family := some "b"
    otfFiles := [("11", ⟨"/f/b-11.otf", none, false⟩)]
    svgFiles := []
    woffFiles := [] }

/-- Filesystem with `a`'s file regular and `b`'s file a live symlink. -/
def fsEx3 : FS := fun p =>
  if p = "/f/a-11.otf" then FSEntry.regular
  else if p = "/f/b-11.otf" then FSEntry.symlinkTo true
  else FSEntry.absent

/-- Host where every unlink succeeds. -/
def osEx3 : OSModel :=
  { symlinkRes := fun _ _ => .ok, copyRes := fun _ _ => none, unlinkRes := fun _ => none }

/-- Installed registry holding families `a` and `b`. -/
def instEx3 : InstalledMusicFonts :=
  { font_root := "/ly/fonts", fams := [("a", famA), ("b", famB)] }

/-! ### Lemmas for `add_tree` idempotence -/

/-- The content of one registry slot: the font file at `(name, t, size)`. -/
def famsSlotVal (fams : Fams) (name : String) (t : FontType) (size : String) :
    Option MusicFontFile :=
  (lookupA fams name).bind (fun fam => lookupA (fam.getFiles t) size)

/-- The status value determined by a slot's content against a filesystem. -/
def slotStatusOf (fs : FS) : Option MusicFontFile → MusicFontStatus
  | none => .MISSING
  | some f =>
      match f.status with
      | some st => st
      | none => resolveStatus fs f.file

/-- The per-file effect of one `flag_for_install` loop iteration: the status
memo is written, and the install flag is set when the own status is FILE or
LINK while the target slot's status is not. -/
def flagFileUpd (fs : FS) (tgtStat : MusicFontStatus) (f : MusicFontFile) : MusicFontFile :=
  let st := slotStatusOf fs (some f)
  if (st = .FILE ∨ st = .LINK) ∧ ¬(tgtStat = .FILE ∨ tgtStat = .LINK) then
    { f with status := some st, install := true }
  else { f with status := some st }

/-- Source family for the flag witnesses. -/
def famC : MusicFontFamily :=
  { family := some "c"
    otfFiles := [("11", ⟨"/r/c-11.otf", none, false⟩)]
    svgFiles := []
    woffFiles := [] }

/-- Filesystem for the flag witnesses: one regular source font. -/
def fsEx4 : FS := fun p => if p = "/r/c-11.otf" then FSEntry.regular else FSEntry.absent

def fW : MusicFontFile := ⟨"/r/foo-11.otf", none, true⟩

def famW : MusicFontFamily :=
  { family := some "foo", otfFiles := [("11", fW)], svgFiles := [], woffFiles := [] }

def fsW : FS := fun p => if p = "/r/foo-11.otf" then .regular else .absent

def repoW : MusicFontRepo := { root := "/r", fams := [("foo", famW)], installable_fonts := [] }

def repo2W : MusicFontRepo :=
  { root := "/r"
    fams := [("foo", famW.flag_all_for_install)]
    installable_fonts :=
      [("foo", ⟨some "foo", [("11", ⟨"/r/foo-11.otf", none, false⟩)], [], []⟩)] }

/-! ### Basic lemmas about the dict model -/

theorem lookupA_insertA_self {α : Type} (l : List (String × α)) (k : String) (v : α) :
    lookupA (insertA l k v) k = some v := by
  induction l with
  | nil => simp [insertA, lookupA]
  | cons hd tl ih =>
      obtain ⟨k', w⟩ := hd
      by_cases h : k' = k
      · simp [insertA, h, lookupA]
      · simp [insertA, h, lookupA, ih]

theorem lookupA_insertA_ne {α : Type} (l : List (String × α)) (k k' : String) (v : α)
    (h : k' ≠ k) : lookupA (insertA l k v) k' = lookupA l k' := by
  have hne : ¬(k = k') := fun hh => h hh.symm
  induction l with
  | nil => simp [insertA, lookupA, hne]
  | cons hd tl ih =>
      obtain ⟨k0, w⟩ := hd
      by_cases h0 : k0 = k
      · subst h0
        simp [insertA, lookupA, hne]
      · simp [insertA, lookupA, h0, ih]

theorem keys_insertA_mem {α : Type} (l : List (String × α)) (k : String) (v : α)
    (h : k ∈ l.map Prod.fst) : (insertA l k v).map Prod.fst = l.map Prod.fst := by
  induction l with
  | nil => simp at h
  | cons hd tl ih =>
      obtain ⟨k0, w⟩ := hd
      by_cases h0 : k0 = k
      · simp [insertA, h0]
      · have hmem : k ∈ tl.map Prod.fst := by
          simp only [List.map_cons, List.mem_cons] at h
          rcases h with h | h
          · exact absurd h.symm h0
          · exact h
        simp [insertA, h0, ih hmem]

theorem keys_insertA_not_mem {α : Type} (l : List (String × α)) (k : String) (v : α)
    (h : k ∉ l.map Prod.fst) : (insertA l k v).map Prod.fst = l.map Prod.fst ++ [k] := by
  induction l with
  | nil => simp [insertA]
  | cons hd tl ih =>
      obtain ⟨k0, w⟩ := hd
      simp only [List.map_cons, List.mem_cons, not_or] at h
      simp [insertA, Ne.symm h.1, ih h.2]

theorem lookupA_none_of_not_mem {α : Type} (l : List (String × α)) (k : String)
    (h : k ∉ l.map Prod.fst) : lookupA l k = none := by
  induction l with
  | nil => rfl
  | cons hd tl ih =>
      obtain ⟨k0, w⟩ := hd
      simp only [List.map_cons, List.mem_cons, not_or] at h
      simp [lookupA, Ne.symm h.1, ih h.2]

theorem lookupA_isSome_of_mem {α : Type} (l : List (String × α)) (k : String)
    (h : k ∈ l.map Prod.fst) : (lookupA l k).isSome := by
  induction l with
  | nil => simp at h
  | cons hd tl ih =>
      obtain ⟨k0, w⟩ := hd
      by_cases h0 : k0 = k
      · simp [lookupA, h0]
      · have hmem : k ∈ tl.map Prod.fst := by
          simp only [List.map_cons, List.mem_cons] at h
          rcases h with h | h
          · exact absurd h.symm h0
          · exact h
        simp [lookupA, h0, ih hmem]

theorem mem_of_lookupA {α : Type} (l : List (String × α)) (k : String) (v : α)
    (h : lookupA l k = some v) : (k, v) ∈ l := by
  induction l with
  | nil => simp [lookupA] at h
  | cons hd tl ih =>
      obtain ⟨k0, w⟩ := hd
      by_cases h0 : k0 = k
      · subst h0
        simp [lookupA] at h
        simp [h]
      · simp [lookupA, h0] at h
        simp [ih h]

theorem getFiles_setFiles_self (fam : MusicFontFamily) (t : FontType)
    (l : List (String × MusicFontFile)) : (fam.setFiles t l).getFiles t = l := by
  cases t <;> rfl

theorem getFiles_setFiles_ne (fam : MusicFontFamily) (t t' : FontType)
    (l : List (String × MusicFontFile)) (h : t' ≠ t) :
    (fam.setFiles t l).getFiles t' = fam.getFiles t' := by
  cases t <;> cases t' <;> first | rfl | exact absurd rfl h

theorem family_setFiles (fam : MusicFontFamily) (t : FontType)
    (l : List (String × MusicFontFile)) : (fam.setFiles t l).family = fam.family := by
  cases t <;> rfl

/-- Existence implies the resolved physical status is FILE or LINK. -/
theorem resolveStatus_of_exists (fs : FS) (p : String) (h : fsExists fs p = true)
    (hd : fs p ≠ .directory) :
    resolveStatus fs p = .FILE ∨ resolveStatus fs p = .LINK := by
  cases hfs : fs p with
  | regular => simp [resolveStatus, fsIsSymlink, fsIsFile, fsExists, hfs]
  | symlinkTo ok =>
      unfold fsExists at h
      rw [hfs] at h
      simp at h
      simp [resolveStatus, fsIsSymlink, fsIsFile, fsExists, hfs, h]
  | directory => exact absurd hfs hd
  | absent =>
      unfold fsExists at h
      rw [hfs] at h
      exact absurd h (by simp)

/-- A successful `check_file` presupposes the existence check passed. -/
theorem check_file_exists (fs : FS) (p : String) (r : String × FontType × String)
    (h : MusicFontFamily.check_file fs p = .ok r) : fsExists fs p = true := by
  unfold MusicFontFamily.check_file at h
  cases he : fsExists fs p with
  | false => rw [he] at h; simp at h
  | true => rfl

/-- The slot just written by `add` resolves its status fresh from the filesystem. -/
theorem status_add_self (X : MusicFontFamily) (t : FontType) (size p : String) (fs : FS) :
    ((X.add t size p).status t size fs).1 = resolveStatus fs p := by
  unfold MusicFontFamily.add MusicFontFamily.status
  rw [getFiles_setFiles_self, lookupA_insertA_self]

/-- C6: For every registered `(type, size)` slot, `MusicFontFamily.status`
returns MISSING when the slot is absent; otherwise it resolves the file's
physical status, symlink first, then regular file, then absence: a symlink
with an existing target yields LINK, a dangling symlink yields BROKEN_LINK
(never MISSING_FILE), a plain regular file yields FILE; and the result is
memoized, so later calls return the first resolution. -/
theorem status_resolution_spec (fam : MusicFontFamily) (t : FontType) (size : String)
    (fs : FS) :
    (lookupA (fam.getFiles t) size = none → fam.status t size fs = (.MISSING, fam))
    ∧ (∀ f, lookupA (fam.getFiles t) size = some f → f.status = none →
        ((fs f.file = .symlinkTo true → (fam.status t size fs).1 = .LINK)
        ∧ (fs f.file = .symlinkTo false → (fam.status t size fs).1 = .BROKEN_LINK)
        ∧ (fsIsSymlink fs f.file = true → (fam.status t size fs).1 ≠ .MISSING_FILE)
        ∧ (fs f.file = .regular → (fam.status t size fs).1 = .FILE)))
    ∧ (∀ st fam', fam.status t size fs = (st, fam') →
        ∀ fs2, fam'.status t size fs2 = (st, fam')) := by
  refine ⟨fun hl => by simp [MusicFontFamily.status, hl], ?_, ?_⟩
  · intro f hl hst
    have hres : (fam.status t size fs).1 = resolveStatus fs f.file := by
      simp [MusicFontFamily.status, hl, hst]
    refine ⟨?_, ?_, ?_, ?_⟩
    · intro hfile
      rw [hres]
      simp [resolveStatus, fsIsSymlink, fsExists, hfile]
    · intro hfile
      rw [hres]
      simp [resolveStatus, fsIsSymlink, fsExists, hfile]
    · intro hsym
      rw [hres]
      simp only [resolveStatus, hsym, if_true]
      split <;> simp
    · intro hfile
      rw [hres]
      simp [resolveStatus, fsIsSymlink, fsIsFile, hfile]
  · intro st fam' hcall fs2
    unfold MusicFontFamily.status at hcall
    cases hl : lookupA (fam.getFiles t) size with
    | none =>
        rw [hl] at hcall
        simp at hcall
        obtain ⟨h1, h2⟩ := hcall
        subst h1
        subst h2
        simp [MusicFontFamily.status, hl]
    | some f =>
        rw [hl] at hcall
        simp only [] at hcall
        cases hst : f.status with
        | some st0 =>
            rw [hst] at hcall
            simp at hcall
            obtain ⟨h1, h2⟩ := hcall
            subst h1
            subst h2
            simp [MusicFontFamily.status, hl, hst]
        | none =>
            rw [hst] at hcall
            simp at hcall
            obtain ⟨h1, h2⟩ := hcall
            subst h1
            rw [← h2]
            unfold MusicFontFamily.status
            rw [getFiles_setFiles_self, lookupA_insertA_self]

theorem status_resolution_spec_witness :
    (famEx1.status .otf "11" fsEx1).1 = .LINK
    ∧ famEx1.status .otf "13" fsEx1 = (.MISSING, famEx1) := by
  constructor
  · exact ((status_resolution_spec famEx1 .otf "11" fsEx1).2.1
      ⟨"/fonts/foo-11.otf", none, false⟩ (by decide) (by decide)).1 (by decide)
  · exact (status_resolution_spec famEx1 .otf "13" fsEx1).1 (by decide)

/-- C8 counterexample: `check_file` only checks `os.path.exists`, which is
also true of a directory, so a directory named like a font file registers
successfully via `add_file` — and the freshly registered slot, queried against
the registration-time filesystem, has status MISSING_FILE, refuting the
claimed invariant. -/
theorem registered_directory_missing_file_cex :
    fsDir "/fonts/dir-11.otf" = .directory
    ∧ fsExists fsDir "/fonts/dir-11.otf" = true
    ∧ MusicFontFamily.empty.add_file fsDir "/fonts/dir-11.otf" = .ok famDir
    ∧ (famDir.status .otf "11" fsDir).1 = .MISSING_FILE :=
  ⟨rfl, rfl, rfl, rfl⟩

/-- C8 (amended): every path placed into a family via `add_file` passed the
existence check of `check_file` (which rejects any path that does not exist,
including a dangling symlink) — but that check is `os.path.exists`, which a
directory also satisfies.  Hence a freshly registered slot, queried against
the filesystem state at registration, is never MISSING, and — provided the
registered path is not an existing non-file such as a directory — never
MISSING_FILE either. -/
theorem registered_file_never_missing_spec (fam : MusicFontFamily) (fs : FS) (p : String) :
    (fsExists fs p = false →
      MusicFontFamily.check_file fs p
        = .error (p ++ " does not point to an existing file or link"))
    ∧ (∀ name t size fam', MusicFontFamily.check_file fs p = .ok (name, t, size) →
        fam.add_file fs p = .ok fam' →
        (fam'.status t size fs).1 ≠ .MISSING
        ∧ (fs p ≠ .directory → (fam'.status t size fs).1 ≠ .MISSING_FILE)) := by
  constructor
  · intro h
    simp [MusicFontFamily.check_file, h]
  · intro name t size fam' hchk hadd
    have hex := check_file_exists fs p _ hchk
    have hfl : ∀ X : MusicFontFamily, fam' = X.add t size p →
        (fam'.status t size fs).1 ≠ .MISSING
        ∧ (fs p ≠ .directory → (fam'.status t size fs).1 ≠ .MISSING_FILE) := by
      intro X hX
      rw [hX, status_add_self]
      constructor
      · cases hfs : fs p with
        | regular => simp [resolveStatus, fsIsSymlink, fsIsFile, fsExists, hfs]
        | symlinkTo ok =>
            cases ok <;> simp [resolveStatus, fsIsSymlink, fsIsFile, fsExists, hfs]
        | directory => simp [resolveStatus, fsIsSymlink, fsIsFile, fsExists, hfs]
        | absent => simp [resolveStatus, fsIsSymlink, fsIsFile, fsExists, hfs]
      · intro hd
        rcases resolveStatus_of_exists fs p hex hd with h | h <;> rw [h] <;> simp
    unfold MusicFontFamily.add_file at hadd
    rw [hchk] at hadd
    cases hff : fam.family with
    | some estab =>
        rw [hff] at hadd
        by_cases he : estab ≠ name
        · simp [he] at hadd
        · simp [he] at hadd
          exact hfl fam hadd.symm
    | none =>
        rw [hff] at hadd
        simp at hadd
        exact hfl { fam with family := some name } hadd.symm

theorem registered_file_never_missing_spec_witness :
    MusicFontFamily.empty.add_file fsEx1 "/fonts/foo-11.otf" = .ok famEx1
    ∧ fsEx1 "/fonts/foo-11.otf" ≠ .directory
    ∧ (famEx1.status .otf "11" fsEx1).1 ≠ .MISSING_FILE := by
  refine ⟨by rfl, by decide, ?_⟩
  exact ((registered_file_never_missing_spec MusicFontFamily.empty fsEx1
    "/fonts/foo-11.otf").2 "foo" .otf "11" famEx1 (by rfl) (by rfl)).2 (by decide)

/-- C5 (code bug): on a URL change whose old URL resolves to a repository,
`slotDocumentUrlChanged` untracks the old resolution and then returns
immediately, so the new URL — although it resolves to a repository, as the
third conjunct shows the fall-through code would have tracked it — is never
tracked. -/
theorem url_changed_skips_tracking :
    slotDocumentUrlChanged gitResolverEx emptyResolver emptyResolver
      [("doc1", "view1")] "doc1" "/repoB/g.ly" "/repoA/f.ly"
      = some [.untrackDoc "/repoA" "f.ly"]
    ∧ (gitResolverEx "/repoB/g.ly").1 ≠ ""
    ∧ trackNewUrl gitResolverEx emptyResolver emptyResolver
        [("doc1", "view1")] "doc1" "/repoB/g.ly"
      = some [.trackDoc "view1" "/repoB" "g.ly"] := by
  decide

/-- The slot written by `add` holds a fresh `MusicFontFile` for the path. -/
theorem add_lookup_self (X : MusicFontFamily) (t : FontType) (size file : String) :
    lookupA ((X.add t size file).getFiles t) size = some ⟨file, none, false⟩ := by
  unfold MusicFontFamily.add
  rw [getFiles_setFiles_self, lookupA_insertA_self]

/-- Registry-level `add_file` succeeds whenever `check_file` does, and the
parsed slot then holds a fresh entry for the path. -/
theorem famsAddFile_char (fams : Fams) (fs : FS) (file name : String) (t : FontType)
    (size : String)
    (hchk : MusicFontFamily.check_file fs file = .ok (name, t, size)) :
    ∃ fams', famsAddFile fams fs file = .ok fams'
      ∧ ∃ fam', lookupA fams' name = some fam'
        ∧ lookupA (fam'.getFiles t) size = some ⟨file, none, false⟩ := by
  have key : famsAddFile fams fs file
      = (match lookupA fams name with
         | none =>
             match MusicFontFamily.empty.add_file fs file with
             | .error e => .error e
             | .ok fam => .ok (insertA fams name fam)
         | some fam => .ok (insertA fams name (fam.add t size file))) := by
    unfold famsAddFile
    rw [hchk]
  rw [key]
  cases hlf : lookupA fams name with
  | none =>
      have hadd : MusicFontFamily.empty.add_file fs file
          = .ok (({ MusicFontFamily.empty with family := some name }).add t size file) := by
        unfold MusicFontFamily.add_file
        rw [hchk]
        rfl
      rw [hadd]
      exact ⟨insertA fams name
          (({ MusicFontFamily.empty with family := some name }).add t size file), rfl,
        ({ MusicFontFamily.empty with family := some name }).add t size file,
        lookupA_insertA_self _ _ _, add_lookup_self _ _ _ _⟩
  | some fam =>
      exact ⟨insertA fams name (fam.add t size file), rfl, fam.add t size file,
        lookupA_insertA_self _ _ _, add_lookup_self _ _ _ _⟩

/-- C3: `InstalledMusicFonts.install` with `copy=False` first attempts a
symbolic link at the computed target; when symlinks are unsupported
(`NotImplementedError`) it falls back to copying the bytes; any other OS
error raises `MusicFontPermissionException` wrapping the OS message; and on
success the newly created target file is registered into the registry. -/
theorem install_error_paths_spec (inst : InstalledMusicFonts) (fs : FS) (os : OSModel)
    (t : FontType) (font_file : String) :
    (∀ e, os.symlinkRes font_file (inst.installTarget t font_file) = .osError e →
      inst.install fs os t font_file
        = .error (.permission ("Font installation failed:\n" ++ e)))
    ∧ (∀ name t' size,
        os.symlinkRes font_file (inst.installTarget t font_file) = .ok →
        MusicFontFamily.check_file
            (fsSet fs (inst.installTarget t font_file)
              (.symlinkTo (fsExists fs font_file)))
            (inst.installTarget t font_file) = .ok (name, t', size) →
        ∃ fams', inst.install fs os t font_file
            = .ok ({ inst with fams := fams' },
                fsSet fs (inst.installTarget t font_file)
                  (.symlinkTo (fsExists fs font_file)))
          ∧ ∃ fam', lookupA fams' name = some fam'
            ∧ lookupA (fam'.getFiles t') size
                = some ⟨inst.installTarget t font_file, none, false⟩)
    ∧ (∀ name t' size,
        os.symlinkRes font_file (inst.installTarget t font_file) = .notImplemented →
        os.copyRes font_file (inst.installTarget t font_file) = none →
        MusicFontFamily.check_file (fsSet fs (inst.installTarget t font_file) .regular)
            (inst.installTarget t font_file) = .ok (name, t', size) →
        ∃ fams', inst.install fs os t font_file
            = .ok ({ inst with fams := fams' },
                fsSet fs (inst.installTarget t font_file) .regular)
          ∧ ∃ fam', lookupA fams' name = some fam'
            ∧ lookupA (fam'.getFiles t') size
                = some ⟨inst.installTarget t font_file, none, false⟩)
    ∧ (∀ e, os.symlinkRes font_file (inst.installTarget t font_file) = .notImplemented →
        os.copyRes font_file (inst.installTarget t font_file) = some e →
        inst.install fs os t font_file
          = .error (.permission ("Font installation failed:\n" ++ e))) := by
  refine ⟨?_, ?_, ?_, ?_⟩
  · intro e h
    simp [InstalledMusicFonts.install, h]
  · intro name t' size hsym hchk
    obtain ⟨fams', hadd, fam', hl1, hl2⟩ := famsAddFile_char inst.fams _ _ name t' size hchk
    refine ⟨fams', ?_, fam', hl1, hl2⟩
    simp [InstalledMusicFonts.install, hsym, hadd]
  · intro name t' size hsym hcopy hchk
    obtain ⟨fams2, hadd2, _, _, _⟩ := famsAddFile_char inst.fams _ _ name t' size hchk
    obtain ⟨fams3, hadd3, fam', hl1, hl2⟩ := famsAddFile_char fams2 _ _ name t' size hchk
    refine ⟨fams3, ?_, fam', hl1, hl2⟩
    simp [InstalledMusicFonts.install, InstalledMusicFonts.installCopy, hsym, hcopy,
      hadd2, hadd3]
  · intro e hsym hcopy
    simp [InstalledMusicFonts.install, InstalledMusicFonts.installCopy, hsym, hcopy]

theorem install_error_paths_spec_witness :
    ∃ fams', instEx.install fsEx2 osExOk .otf "/src/foo-11.otf"
        = .ok ({ instEx with fams := fams' },
            fsSet fsEx2 (instEx.installTarget .otf "/src/foo-11.otf")
              (.symlinkTo (fsExists fsEx2 "/src/foo-11.otf")))
      ∧ ∃ fam', lookupA fams' "foo" = some fam'
        ∧ lookupA (fam'.getFiles .otf) "11"
            = some ⟨instEx.installTarget .otf "/src/foo-11.otf", none, false⟩ := by
  exact (install_error_paths_spec instEx fsEx2 osExOk .otf "/src/foo-11.otf").2.1
    "foo" .otf "11" rfl (by rfl)

/-! ### Lemmas for `remove` -/

theorem lookupA_eraseA_ne {α : Type} (l : List (String × α)) (k k' : String)
    (h : k' ≠ k) : lookupA (eraseA l k) k' = lookupA l k' := by
  induction l with
  | nil => rfl
  | cons hd tl ih =>
      obtain ⟨k0, w⟩ := hd
      by_cases h0 : k0 = k
      · subst h0
        have hne : k0 ≠ k' := fun hh => h hh.symm
        simp [eraseA, lookupA, hne]
      · simp [eraseA, lookupA, h0, ih]

theorem keys_eraseA_sublist {α : Type} (l : List (String × α)) (k : String) :
    List.Sublist ((eraseA l k).map Prod.fst) (l.map Prod.fst) := by
  induction l with
  | nil => simp [eraseA]
  | cons hd tl ih =>
      obtain ⟨k0, w⟩ := hd
      by_cases h0 : k0 = k
      · simp [eraseA, h0]
      · simp only [eraseA, h0, if_false, List.map_cons]
        exact ih.cons₂ k0

theorem lookupA_eraseA_self {α : Type} (l : List (String × α)) (k : String)
    (h : (l.map Prod.fst).Nodup) : lookupA (eraseA l k) k = none := by
  induction l with
  | nil => rfl
  | cons hd tl ih =>
      obtain ⟨k0, w⟩ := hd
      simp only [List.map_cons, List.nodup_cons] at h
      by_cases h0 : k0 = k
      · subst h0
        simp only [eraseA, if_pos rfl]
        exact lookupA_none_of_not_mem tl k0 h.1
      · simp [eraseA, lookupA, h0, ih h.2]

theorem unlinkAll_ok (os : OSModel) (l : List String) :
    ∀ fs : FS, (∀ p ∈ l, os.unlinkRes p = none) →
      ∃ fs2, unlinkAll os l fs = .ok fs2 ∧ ∀ q, q ∉ l → fs2 q = fs q := by
  induction l with
  | nil => intro fs _; exact ⟨fs, rfl, fun _ _ => rfl⟩
  | cons p rest ih =>
      intro fs h
      have hp : os.unlinkRes p = none := h p (by simp)
      obtain ⟨fs2, heq, hpres⟩ := ih (fsSet fs p .absent) (fun q hq => h q (by simp [hq]))
      refine ⟨fs2, ?_, ?_⟩
      · simp [unlinkAll, hp, heq]
      · intro q hq
        simp only [List.mem_cons, not_or] at hq
        rw [hpres q hq.2]
        simp [fsSet, hq.1]

theorem mem_familyPaths_of_mem_link (fam : MusicFontFamily) (fs : FS) (q : String)
    (h : q ∈ linkPathsOf fam fs) : q ∈ familyPaths fam := by
  simp only [linkPathsOf, List.mem_map, List.mem_filter] at h
  obtain ⟨e, ⟨he, _⟩, hq⟩ := h
  exact List.mem_map.mpr ⟨e, he, hq⟩

theorem regularPathsOf_congr (fam : MusicFontFamily) (fs fs2 : FS)
    (h : ∀ p ∈ familyPaths fam, fs2 p = fs p) :
    regularPathsOf fam fs2 = regularPathsOf fam fs := by
  unfold regularPathsOf
  congr 1
  apply List.filter_congr
  intro e he
  have hmem : e.2.2.file ∈ familyPaths fam := List.mem_map.mpr ⟨e, he, rfl⟩
  unfold fsIsSymlink
  rw [h _ hmem]

theorem linkPathsOf_congr (fam : MusicFontFamily) (fs fs2 : FS)
    (h : ∀ p ∈ familyPaths fam, fs2 p = fs p) :
    linkPathsOf fam fs2 = linkPathsOf fam fs := by
  unfold linkPathsOf
  congr 1
  apply List.filter_congr
  intro e he
  have hmem : e.2.2.file ∈ familyPaths fam := List.mem_map.mpr ⟨e, he, rfl⟩
  unfold fsIsSymlink
  rw [h _ hmem]

theorem regularPathsOf_nil_of_all_links (fam : MusicFontFamily) (fs : FS)
    (h : ∀ p ∈ familyPaths fam, fsIsSymlink fs p = true) :
    regularPathsOf fam fs = [] := by
  unfold regularPathsOf
  rw [List.map_eq_nil_iff, List.filter_eq_nil_iff]
  intro e he
  have hmem : e.2.2.file ∈ familyPaths fam := List.mem_map.mpr ⟨e, he, rfl⟩
  simp [h _ hmem]

theorem mem_regularPathsOf_of_regular (fam : MusicFontFamily) (fs : FS) (p : String)
    (hp : p ∈ familyPaths fam) (hreg : fsIsSymlink fs p = false) :
    p ∈ regularPathsOf fam fs := by
  unfold familyPaths at hp
  obtain ⟨e, he, hfile⟩ := List.mem_map.mp hp
  unfold regularPathsOf
  refine List.mem_map.mpr ⟨e, List.mem_filter.mpr ⟨he, ?_⟩, hfile⟩
  rw [hfile, hreg]
  rfl

/-- A refusing step: the head family has a non-link file, so `remove` raises
with the offending paths joined by newlines, leaving everything unchanged. -/
theorem removeGo_step_refuse (os : OSModel) (fams : Fams) (fs : FS) (name : String)
    (rest : List String) (F : MusicFontFamily)
    (hF : lookupA fams name = some F) (hreg : regularPathsOf F fs ≠ []) :
    removeGo os fams fs (name :: rest)
      = .refused (String.intercalate "\n" (regularPathsOf F fs)) fams fs := by
  simp [removeGo, hF, hreg]

/-- A clean step: an all-links family whose unlinks all succeed is removed and
the loop continues with the family dropped and the links gone. -/
theorem removeGo_step_clean (os : OSModel) (fams : Fams) (fs fs2 : FS) (m : String)
    (rest : List String) (famM : MusicFontFamily)
    (hm : lookupA fams m = some famM)
    (hlinks : ∀ p ∈ familyPaths famM, fsIsSymlink fs p = true)
    (hunl : unlinkAll os (linkPathsOf famM fs) fs = .ok fs2) :
    removeGo os fams fs (m :: rest) = removeGo os (eraseA fams m) fs2 rest := by
  have hfiles : regularPathsOf famM fs = [] := regularPathsOf_nil_of_all_links famM fs hlinks
  simp [removeGo, hm, hfiles, hunl]

theorem fsIsSymlink_congr (fs fs2 : FS) (p : String) (h : fs2 p = fs p) :
    fsIsSymlink fs2 p = fsIsSymlink fs p := by
  unfold fsIsSymlink
  rw [h]

theorem mem_regularPathsOf_elim (fam : MusicFontFamily) (fs : FS) (p : String)
    (h : p ∈ regularPathsOf fam fs) :
    p ∈ familyPaths fam ∧ fsIsSymlink fs p = false := by
  unfold regularPathsOf at h
  obtain ⟨e, hef, hfile⟩ := List.mem_map.mp h
  obtain ⟨he, hpred⟩ := List.mem_filter.mp hef
  constructor
  · exact List.mem_map.mpr ⟨e, he, hfile⟩
  · rw [← hfile]
    simpa using hpred

/-- The induction behind the refusal theorems: a prefix of cleanly removable
families is processed, then the first family with a non-link file refuses,
with the prefix families gone, everything else untouched. -/
theorem removeGo_refusal_aux (os : OSModel) :
    ∀ (pre : List String) (fams : Fams) (fs : FS) (name : String) (post : List String)
      (F : MusicFontFamily),
    (fams.map Prod.fst).Nodup →
    lookupA fams name = some F →
    regularPathsOf F fs ≠ [] →
    name ∉ pre →
    pre.Nodup →
    (∀ n ∈ pre, ∃ fam, lookupA fams n = some fam
        ∧ (∀ p ∈ familyPaths fam, fsIsSymlink fs p = true)
        ∧ (∀ p ∈ familyPaths fam, os.unlinkRes p = none)) →
    (∀ n ∈ pre, ∀ famN, lookupA fams n = some famN →
        ∀ p ∈ familyPaths famN, p ∉ familyPaths F) →
    (∀ m ∈ pre, ∀ n ∈ pre, m ≠ n → ∀ famM famN,
        lookupA fams m = some famM → lookupA fams n = some famN →
        ∀ p ∈ familyPaths famM, p ∉ familyPaths famN) →
    ∃ fams' fs',
      removeGo os fams fs (pre ++ name :: post)
        = .refused (String.intercalate "\n" (regularPathsOf F fs)) fams' fs'
      ∧ (∀ n, n ∉ pre → lookupA fams' n = lookupA fams n)
      ∧ (∀ n ∈ pre, lookupA fams' n = none)
      ∧ (∀ p, (∀ n ∈ pre, ∀ famN, lookupA fams n = some famN → p ∉ familyPaths famN) →
          fs' p = fs p) := by
  intro pre
  induction pre with
  | nil =>
      intro fams fs name post F _ hF hreg _ _ _ _ _
      refine ⟨fams, fs, ?_, fun n _ => rfl, by simp, fun p _ => rfl⟩
      simpa using removeGo_step_refuse os fams fs name post F hF hreg
  | cons m pre' ih =>
      intro fams fs name post F hkeys hF hreg hnp hnd hclean hdisjF hdisjP
      obtain ⟨hmnp', hnd'⟩ := List.nodup_cons.mp hnd
      obtain ⟨famM, hm, hml, hmu⟩ := hclean m (by simp)
      have hall : ∀ p ∈ linkPathsOf famM fs, os.unlinkRes p = none :=
        fun p hp => hmu p (mem_familyPaths_of_mem_link famM fs p hp)
      obtain ⟨fs2, hunl, hpres⟩ := unlinkAll_ok os (linkPathsOf famM fs) fs hall
      have hfs2 : ∀ p, p ∉ familyPaths famM → fs2 p = fs p := by
        intro p hp
        exact hpres p (fun hq => hp (mem_familyPaths_of_mem_link famM fs p hq))
      have hstep := removeGo_step_clean os fams fs fs2 m (pre' ++ name :: post) famM hm hml hunl
      have hmne : name ≠ m := fun hh => hnp (by simp [hh])
      have hFpres : ∀ p ∈ familyPaths F, fs2 p = fs p := by
        intro p hp
        exact hfs2 p (fun hmem => (hdisjF m (by simp) famM hm p hmem) hp)
      have hregc : regularPathsOf F fs2 = regularPathsOf F fs :=
        regularPathsOf_congr F fs fs2 hFpres
      have hreg2 : regularPathsOf F fs2 ≠ [] := by rw [hregc]; exact hreg
      have hkeys2 : ((eraseA fams m).map Prod.fst).Nodup :=
        List.Nodup.sublist (keys_eraseA_sublist fams m) hkeys
      have hF2 : lookupA (eraseA fams m) name = some F := by
        rw [lookupA_eraseA_ne fams m name hmne]
        exact hF
      have hnp' : name ∉ pre' := fun hh => hnp (by simp [hh])
      have hclean' : ∀ n ∈ pre', ∃ fam, lookupA (eraseA fams m) n = some fam
          ∧ (∀ p ∈ familyPaths fam, fsIsSymlink fs2 p = true)
          ∧ (∀ p ∈ familyPaths fam, os.unlinkRes p = none) := by
        intro n hn
        obtain ⟨famN, hlN, hlinksN, huN⟩ := hclean n (by simp [hn])
        have hne : n ≠ m := fun hh => hmnp' (hh ▸ hn)
        refine ⟨famN, by rw [lookupA_eraseA_ne fams m n hne]; exact hlN, ?_, huN⟩
        intro p hp
        have hdis : p ∉ familyPaths famM := fun hmem =>
          (hdisjP m (by simp) n (by simp [hn]) (fun hh => hne hh.symm) famM famN hm hlN
            p hmem) hp
        rw [fsIsSymlink_congr fs fs2 p (hfs2 p hdis)]
        exact hlinksN p hp
      have hdisjF' : ∀ n ∈ pre', ∀ famN, lookupA (eraseA fams m) n = some famN →
          ∀ p ∈ familyPaths famN, p ∉ familyPaths F := by
        intro n hn famN hlN
        have hne : n ≠ m := fun hh => hmnp' (hh ▸ hn)
        rw [lookupA_eraseA_ne fams m n hne] at hlN
        exact hdisjF n (by simp [hn]) famN hlN
      have hdisjP' : ∀ m2 ∈ pre', ∀ n ∈ pre', m2 ≠ n → ∀ famM2 famN,
          lookupA (eraseA fams m) m2 = some famM2 →
          lookupA (eraseA fams m) n = some famN →
          ∀ p ∈ familyPaths famM2, p ∉ familyPaths famN := by
        intro m2 hm2 n hn hmn famM2 famN hl1 hl2
        have hne1 : m2 ≠ m := fun hh => hmnp' (hh ▸ hm2)
        have hne2 : n ≠ m := fun hh => hmnp' (hh ▸ hn)
        rw [lookupA_eraseA_ne fams m m2 hne1] at hl1
        rw [lookupA_eraseA_ne fams m n hne2] at hl2
        exact hdisjP m2 (by simp [hm2]) n (by simp [hn]) hmn famM2 famN hl1 hl2
      obtain ⟨fams', fs', heq, hlpres, hlnone, hfspres⟩ :=
        ih (eraseA fams m) fs2 name post F hkeys2 hF2 hreg2 hnp' hnd' hclean' hdisjF' hdisjP'
      refine ⟨fams', fs', ?_, ?_, ?_, ?_⟩
      · rw [List.cons_append, hstep, heq, hregc]
      · intro n hn
        simp only [List.mem_cons, not_or] at hn
        rw [hlpres n hn.2, lookupA_eraseA_ne fams m n hn.1]
      · intro n hn
        rcases List.mem_cons.mp hn with h1 | h1
        · subst h1
          rw [hlpres n hmnp']
          exact lookupA_eraseA_self fams n hkeys
        · exact hlnone n h1
      · intro p hp
        have hpm : p ∉ familyPaths famM := fun hmem => hp m (by simp) famM hm hmem
        have hcond : ∀ n ∈ pre', ∀ famN, lookupA (eraseA fams m) n = some famN →
            p ∉ familyPaths famN := by
          intro n hn famN hlN
          have hne : n ≠ m := fun hh => hmnp' (hh ▸ hn)
          rw [lookupA_eraseA_ne fams m n hne] at hlN
          exact hp n (by simp [hn]) famN hlN
        rw [hfspres p hcond]
        exact hfs2 p hpm

/-- C1: for a removal batch in which every family before `name` is cleanly
removable (all links, unlinks permitted, paths disjoint), if `name`'s family
contains at least one regular (non-symlink) file then `remove` raises
`MusicFontFileRemoveException` whose message is exactly the family's
non-symlink paths — which, as every registered path of the family exists and
none is a directory, are exactly its regular-file paths — joined by newlines,
and the failed call
leaves that family's registry entry and its on-disk files unchanged. -/
theorem remove_refusal_spec (inst : InstalledMusicFonts) (fs : FS) (os : OSModel)
    (pre post : List String) (name : String) (F : MusicFontFamily)
    (hkeys : (inst.fams.map Prod.fst).Nodup)
    (hF : lookupA inst.fams name = some F)
    (hex : ∀ p ∈ familyPaths F, fs p ≠ .absent)
    (hnodir : ∀ p ∈ familyPaths F, fs p ≠ .directory)
    (hregfile : ∃ p ∈ familyPaths F, fs p = .regular)
    (hnp : name ∉ pre)
    (hnd : pre.Nodup)
    (hclean : ∀ n ∈ pre, ∃ fam, lookupA inst.fams n = some fam
        ∧ (∀ p ∈ familyPaths fam, fsIsSymlink fs p = true)
        ∧ (∀ p ∈ familyPaths fam, os.unlinkRes p = none))
    (hdisjF : ∀ n ∈ pre, ∀ famN, lookupA inst.fams n = some famN →
        ∀ p ∈ familyPaths famN, p ∉ familyPaths F)
    (hdisjP : ∀ m ∈ pre, ∀ n ∈ pre, m ≠ n → ∀ famM famN,
        lookupA inst.fams m = some famM → lookupA inst.fams n = some famN →
        ∀ p ∈ familyPaths famM, p ∉ familyPaths famN) :
    ∃ fams' fs',
      inst.remove fs os (pre ++ name :: post)
        = .refused (String.intercalate "\n" (regularPathsOf F fs)) fams' fs'
      ∧ (∀ p, p ∈ regularPathsOf F fs ↔ (p ∈ familyPaths F ∧ fs p = .regular))
      ∧ lookupA fams' name = some F
      ∧ (∀ p ∈ familyPaths F, fs' p = fs p) := by
  have hreg : regularPathsOf F fs ≠ [] := by
    obtain ⟨p, hp, hpr⟩ := hregfile
    have hsym : fsIsSymlink fs p = false := by
      unfold fsIsSymlink
      rw [hpr]
    exact List.ne_nil_of_mem (mem_regularPathsOf_of_regular F fs p hp hsym)
  obtain ⟨fams', fs', heq, hlpres, _, hfspres⟩ :=
    removeGo_refusal_aux os pre inst.fams fs name post F hkeys hF hreg hnp hnd hclean
      hdisjF hdisjP
  refine ⟨fams', fs', heq, ?_, ?_, ?_⟩
  · intro p
    constructor
    · intro hmem
      obtain ⟨hfp, hsym⟩ := mem_regularPathsOf_elim F fs p hmem
      refine ⟨hfp, ?_⟩
      have hne := hex p hfp
      unfold fsIsSymlink at hsym
      cases hfs : fs p with
      | regular => rfl
      | symlinkTo ok => rw [hfs] at hsym; simp at hsym
      | directory => exact absurd hfs (hnodir p hfp)
      | absent => exact absurd hfs hne
    · intro ⟨hfp, hpr⟩
      have hsym : fsIsSymlink fs p = false := by
        unfold fsIsSymlink
        rw [hpr]
      exact mem_regularPathsOf_of_regular F fs p hfp hsym
  · rw [hlpres name hnp]
    exact hF
  · intro p hp
    apply hfspres
    intro n hn famN hlN hmem
    exact (hdisjF n hn famN hlN p hmem) hp

/-- C2 (amended): a refusal aborts the rest of the batch: the families before
the refusing one are removed normally (their entries gone, their links
unlinked), while the refusing family and every name after it are left exactly
as they were — later families are NOT processed on their own merits. -/
theorem remove_refusal_aborts_batch (inst : InstalledMusicFonts) (fs : FS) (os : OSModel)
    (pre post : List String) (name : String) (F : MusicFontFamily)
    (hkeys : (inst.fams.map Prod.fst).Nodup)
    (hF : lookupA inst.fams name = some F)
    (hreg : regularPathsOf F fs ≠ [])
    (hnp : name ∉ pre)
    (hnd : pre.Nodup)
    (hclean : ∀ n ∈ pre, ∃ fam, lookupA inst.fams n = some fam
        ∧ (∀ p ∈ familyPaths fam, fsIsSymlink fs p = true)
        ∧ (∀ p ∈ familyPaths fam, os.unlinkRes p = none))
    (hdisjF : ∀ n ∈ pre, ∀ famN, lookupA inst.fams n = some famN →
        ∀ p ∈ familyPaths famN, p ∉ familyPaths F)
    (hdisjP : ∀ m ∈ pre, ∀ n ∈ pre, m ≠ n → ∀ famM famN,
        lookupA inst.fams m = some famM → lookupA inst.fams n = some famN →
        ∀ p ∈ familyPaths famM, p ∉ familyPaths famN) :
    ∃ fams' fs',
      inst.remove fs os (pre ++ name :: post)
        = .refused (String.intercalate "\n" (regularPathsOf F fs)) fams' fs'
      ∧ (∀ n, n ∉ pre → lookupA fams' n = lookupA inst.fams n)
      ∧ (∀ n ∈ pre, lookupA fams' n = none)
      ∧ (∀ p, (∀ n ∈ pre, ∀ famN, lookupA inst.fams n = some famN →
            p ∉ familyPaths famN) → fs' p = fs p) :=
  removeGo_refusal_aux os pre inst.fams fs name post F hkeys hF hreg hnp hnd hclean
    hdisjF hdisjP

/-- C2 counterexample: in the batch `["a", "b"]` the refusal of `a` (a real
file) aborts the whole call, so `b` — which the second conjunct shows is
removable on its own — is NOT processed: it stays in the registry and its
link stays on disk, refuting independent per-family processing. -/
theorem remove_batch_not_independent_cex :
    instEx3.remove fsEx3 osEx3 ["a", "b"]
      = .refused "/f/a-11.otf" instEx3.fams fsEx3
    ∧ instEx3.remove fsEx3 osEx3 ["b"]
      = .ok [("a", famA)] (fsSet fsEx3 "/f/b-11.otf" .absent)
    ∧ lookupA instEx3.fams "b" = some famB := by
  exact ⟨rfl, rfl, rfl⟩

theorem remove_refusal_spec_witness :
    ∃ fams' fs',
      instEx3.remove fsEx3 osEx3 (["b"] ++ "a" :: [])
        = .refused (String.intercalate "\n" (regularPathsOf famA fsEx3)) fams' fs'
      ∧ (∀ p, p ∈ regularPathsOf famA fsEx3
          ↔ (p ∈ familyPaths famA ∧ fsEx3 p = .regular))
      ∧ lookupA fams' "a" = some famA
      ∧ (∀ p ∈ familyPaths famA, fs' p = fsEx3 p) := by
  apply remove_refusal_spec instEx3 fsEx3 osEx3 ["b"] [] "a" famA
  · decide
  · rfl
  · decide
  · decide
  · decide
  · decide
  · decide
  · intro n hn
    have hb : n = "b" := by simpa using hn
    subst hb
    exact ⟨famB, rfl, by decide, fun p _ => rfl⟩
  · intro n hn famN hlN
    have hb : n = "b" := by simpa using hn
    subst hb
    have hfam : famN = famB := by
      rw [show lookupA instEx3.fams "b" = some famB from rfl] at hlN
      exact (Option.some.injEq _ _ ▸ hlN).symm ▸ rfl
    subst hfam
    decide
  · intro m hm n hn hmn famM famN hl1 hl2
    have h1 : m = "b" := by simpa using hm
    have h2 : n = "b" := by simpa using hn
    subst h1
    subst h2
    exact absurd rfl hmn

theorem remove_refusal_aborts_batch_witness :
    ∃ fams' fs',
      instEx3.remove fsEx3 osEx3 (["b"] ++ "a" :: ["c"])
        = .refused (String.intercalate "\n" (regularPathsOf famA fsEx3)) fams' fs'
      ∧ (∀ n, n ∉ ["b"] → lookupA fams' n = lookupA instEx3.fams n)
      ∧ (∀ n ∈ ["b"], lookupA fams' n = none)
      ∧ (∀ p, (∀ n ∈ ["b"], ∀ famN, lookupA instEx3.fams n = some famN →
            p ∉ familyPaths famN) → fs' p = fsEx3 p) := by
  apply remove_refusal_aborts_batch instEx3 fsEx3 osEx3 ["b"] ["c"] "a" famA
  · decide
  · rfl
  · decide
  · decide
  · decide
  · intro n hn
    have hb : n = "b" := by simpa using hn
    subst hb
    exact ⟨famB, rfl, by decide, fun p _ => rfl⟩
  · intro n hn famN hlN
    have hb : n = "b" := by simpa using hn
    subst hb
    rw [show lookupA instEx3.fams "b" = some famB from rfl] at hlN
    have h2 := Option.some.inj hlN
    subst h2
    decide
  · intro m hm n hn hmn famM famN hl1 hl2
    have h1 : m = "b" := by simpa using hm
    have h2 : n = "b" := by simpa using hn
    subst h1
    subst h2
    exact absurd rfl hmn

/-! ### Lemmas for the filename parser -/

theorem sizeSplit_sound (l sz r : List Char) (h : sizeSplit l = some (sz, r)) :
    l = sz ++ '.' :: r ∧ isValidSize sz = true := by
  unfold sizeSplit at h
  split at h
  · simp at h
    obtain ⟨h1, h2⟩ := h
    subst h1
    subst h2
    exact ⟨rfl, by decide⟩
  · rename_i d1 d2 rest _
    split at h
    · simp at h
      obtain ⟨h1, h2⟩ := h
      subst h1
      subst h2
      rename_i hd
      refine ⟨rfl, ?_⟩
      simp [isValidSize, hd]
    · simp at h
  · simp at h

theorem sizeSplit_digits (d1 d2 : Char) (X : List Char)
    (h1 : d1.isDigit = true) (h2 : d2.isDigit = true) :
    sizeSplit (d1 :: d2 :: '.' :: X) = some ([d1, d2], X) := by
  have hb : d1 ≠ 'b' := by
    intro hh
    rw [hh] at h1
    exact absurd h1 (by decide)
  unfold sizeSplit
  split
  · rename_i heq
    injection heq with e1 rest1
    exact absurd e1 hb
  · rename_i a b rest heq
    injection heq with e1 r1
    injection r1 with e2 r2
    injection r2 with e3 r3
    subst e1; subst e2; subst r3
    simp [h1, h2]
  · rename_i hne
    exact absurd rfl (by exact fun h => hne d1 d2 X h)

theorem typeSplit_sound (l : List Char) (ty : FontType) (r : List Char)
    (h : typeSplit l = some (ty, r)) : l = typeChars ty ++ r := by
  unfold typeSplit at h
  split at h <;> simp at h <;> obtain ⟨h1, h2⟩ := h <;> subst h1 <;> subst h2 <;>
    simp [typeChars]

theorem tailOk_sound (l : List Char) (h : tailOk l = true) : l = [] ∨ l = ['\n'] := by
  unfold tailOk at h
  split at h <;> simp_all

theorem typeSplit_self_nil (ty : FontType) : typeSplit (typeChars ty) = some (ty, []) := by
  cases ty <;> rfl

theorem suffixParse_sound (l : List Char) (sz : List Char) (ty : FontType)
    (h : suffixParse l = some (sz, ty)) :
    isValidSize sz = true
    ∧ (l = '-' :: (sz ++ '.' :: typeChars ty)
      ∨ l = '-' :: (sz ++ '.' :: typeChars ty) ++ ['\n']) := by
  unfold suffixParse at h
  split at h
  · rename_i rest
    cases hsz : sizeSplit rest with
    | none => rw [hsz] at h; simp at h
    | some p =>
        obtain ⟨sz0, r2⟩ := p
        rw [hsz] at h
        simp only [Option.some_bind] at h
        cases hty : typeSplit r2 with
        | none => rw [hty] at h; simp at h
        | some q =>
            obtain ⟨ty0, r3⟩ := q
            rw [hty] at h
            simp only [Option.some_bind] at h
            by_cases htl : tailOk r3 = true
            · rw [if_pos htl] at h
              simp at h
              obtain ⟨h1, h2⟩ := h
              subst h1
              subst h2
              obtain ⟨hdec, hval⟩ := sizeSplit_sound rest sz0 r2 hsz
              have hr2 := typeSplit_sound r2 ty0 r3 hty
              rcases tailOk_sound r3 htl with h3 | h3 <;> subst h3
              · refine ⟨hval, Or.inl ?_⟩
                rw [hdec, hr2]
                simp
              · refine ⟨hval, Or.inr ?_⟩
                rw [hdec, hr2]
                simp
            · rw [if_neg htl] at h
              simp at h
  · simp at h

theorem pmatch_sound (l : List Char) : ∀ (f sz : List Char) (ty : FontType),
    pmatch l = some (f, sz, ty) →
    '\n' ∉ f ∧ isValidSize sz = true
    ∧ (l = f ++ '-' :: (sz ++ '.' :: typeChars ty)
      ∨ l = (f ++ '-' :: (sz ++ '.' :: typeChars ty)) ++ ['\n']) := by
  induction l with
  | nil => intro f sz ty h; simp [pmatch] at h
  | cons c rest ih =>
      intro f sz ty h
      unfold pmatch at h
      by_cases hc : c = '\n'
      · rw [if_pos hc] at h
        subst hc
        rw [show suffixParse ('\n' :: rest) = none from rfl] at h
        simp at h
      · rw [if_neg hc] at h
        cases hp : pmatch rest with
        | some r =>
            obtain ⟨f', sz', ty'⟩ := r
            rw [hp] at h
            simp at h
            obtain ⟨h1, h2, h3⟩ := h
            subst h1
            subst h2
            subst h3
            obtain ⟨hnl, hval, hdec⟩ := ih f' sz' ty' hp
            have hnlc : '\n' ∉ c :: f' := by
              intro hmem
              rcases List.mem_cons.mp hmem with hh | hh
              · exact hc hh.symm
              · exact hnl hh
            refine ⟨hnlc, hval, ?_⟩
            rcases hdec with hd | hd <;> rw [hd] <;> simp
        | none =>
            rw [hp] at h
            cases hs : suffixParse (c :: rest) with
            | none => rw [hs] at h; simp at h
            | some p =>
                obtain ⟨sz0, ty0⟩ := p
                rw [hs] at h
                simp at h
                obtain ⟨h1, h2, h3⟩ := h
                subst h1
                subst h2
                subst h3
                obtain ⟨hval, hdec⟩ := suffixParse_sound _ _ _ hs
                exact ⟨by simp, hval, by simpa using hdec⟩

theorem pmatch_none_of_no_dash (l : List Char) (h : '-' ∉ l) : pmatch l = none := by
  cases hp : pmatch l with
  | none => rfl
  | some r =>
      obtain ⟨f, sz, ty⟩ := r
      obtain ⟨_, _, hdec⟩ := pmatch_sound l f sz ty hp
      exfalso
      apply h
      rcases hdec with hd | hd <;> rw [hd] <;> simp

theorem isValidSize_cases (sz : List Char) (h : isValidSize sz = true) :
    sz = braceChars
    ∨ ∃ d1 d2, sz = [d1, d2] ∧ d1.isDigit = true ∧ d2.isDigit = true := by
  unfold isValidSize at h
  rw [Bool.or_eq_true] at h
  rcases h with h | h
  · exact Or.inl (by simpa using h)
  · right
    rcases sz with _ | ⟨a, _ | ⟨b, _ | ⟨c2, tl⟩⟩⟩
    · simp at h
    · simp at h
    · simp at h
      exact ⟨a, b, rfl, h.1, h.2⟩
    · simp at h

theorem mem_size_not (sz : List Char) (c : Char) (h : isValidSize sz = true)
    (hc : c.isDigit = false) (hb : c ∉ braceChars) : c ∉ sz := by
  rcases isValidSize_cases sz h with h1 | ⟨d1, d2, h1, hd1, hd2⟩ <;> subst h1
  · exact hb
  · intro hmem
    rcases List.mem_cons.mp hmem with h2 | h2
    · subst h2; rw [hd1] at hc; simp at hc
    · rcases List.mem_cons.mp h2 with h3 | h3
      · subst h3; rw [hd2] at hc; simp at hc
      · simp at h3

theorem suffixParse_self (sz : List Char) (ty : FontType) (h : isValidSize sz = true) :
    suffixParse ('-' :: (sz ++ '.' :: typeChars ty)) = some (sz, ty) := by
  have hss : sizeSplit (sz ++ '.' :: typeChars ty) = some (sz, typeChars ty) := by
    rcases isValidSize_cases sz h with h1 | ⟨d1, d2, h1, hd1, hd2⟩ <;> subst h1
    · rfl
    · exact sizeSplit_digits d1 d2 _ hd1 hd2
  show (sizeSplit (sz ++ '.' :: typeChars ty)).bind _ = some (sz, ty)
  rw [hss]
  simp only [Option.some_bind]
  rw [typeSplit_self_nil]
  simp [tailOk]

theorem pmatch_complete : ∀ (f : List Char), '\n' ∉ f →
    ∀ (sz : List Char) (ty : FontType), isValidSize sz = true →
    pmatch (f ++ '-' :: (sz ++ '.' :: typeChars ty)) = some (f, sz, ty) := by
  intro f
  induction f with
  | nil =>
      intro _ sz ty hval
      simp only [List.nil_append]
      unfold pmatch
      rw [if_neg (by decide)]
      have hnone : pmatch (sz ++ '.' :: typeChars ty) = none := by
        apply pmatch_none_of_no_dash
        intro hmem
        rcases List.mem_append.mp hmem with hm | hm
        · exact mem_size_not sz '-' hval (by decide) (by decide) hm
        · rcases List.mem_cons.mp hm with hm2 | hm2
          · exact absurd hm2 (by decide)
          · cases ty <;> simp [typeChars] at hm2
      rw [hnone]
      rw [show (match (none : Option (List Char × List Char × FontType)) with
        | some (f, sz, ty) => some ('-' :: f, sz, ty)
        | none => (suffixParse ('-' :: (sz ++ '.' :: typeChars ty))).map
            (fun p => ([], p.1, p.2))) = (suffixParse ('-' :: (sz ++ '.' :: typeChars ty))).map
            (fun p => ([], p.1, p.2)) from rfl]
      rw [suffixParse_self sz ty hval]
      rfl
  | cons c f' ih =>
      intro hnl sz ty hval
      have hc : c ≠ '\n' := fun hh => hnl (by simp [hh])
      have hnl' : '\n' ∉ f' := fun hh => hnl (by simp [hh])
      simp only [List.cons_append]
      unfold pmatch
      rw [if_neg hc, ih hnl' sz ty hval]

theorem suffixParseStrict_sound (l : List Char) (sz : List Char) (ty : FontType)
    (h : suffixParseStrict l = some (sz, ty)) :
    isValidSize sz = true ∧ l = '-' :: (sz ++ '.' :: typeChars ty) := by
  unfold suffixParseStrict at h
  split at h
  · rename_i rest
    cases hsz : sizeSplit rest with
    | none => rw [hsz] at h; simp at h
    | some p =>
        obtain ⟨sz0, r2⟩ := p
        rw [hsz] at h
        simp only [Option.some_bind] at h
        cases hty : typeSplit r2 with
        | none => rw [hty] at h; simp at h
        | some q =>
            obtain ⟨ty0, r3⟩ := q
            rw [hty] at h
            simp only [Option.some_bind] at h
            by_cases htl : r3 = []
            · rw [if_pos htl] at h
              simp at h
              obtain ⟨h1, h2⟩ := h
              subst h1
              subst h2
              subst htl
              obtain ⟨hdec, hval⟩ := sizeSplit_sound rest sz0 r2 hsz
              have hr2 := typeSplit_sound r2 ty0 [] hty
              refine ⟨hval, ?_⟩
              rw [hdec, hr2]
              simp
            · rw [if_neg htl] at h
              simp at h
  · simp at h

theorem suffixParseStrict_self (sz : List Char) (ty : FontType)
    (h : isValidSize sz = true) :
    suffixParseStrict ('-' :: (sz ++ '.' :: typeChars ty)) = some (sz, ty) := by
  have hss : sizeSplit (sz ++ '.' :: typeChars ty) = some (sz, typeChars ty) := by
    rcases isValidSize_cases sz h with h1 | ⟨d1, d2, h1, hd1, hd2⟩ <;> subst h1
    · rfl
    · exact sizeSplit_digits d1 d2 _ hd1 hd2
  show (sizeSplit (sz ++ '.' :: typeChars ty)).bind _ = some (sz, ty)
  rw [hss]
  simp only [Option.some_bind]
  rw [typeSplit_self_nil]
  simp

theorem isFormed_iff (l : List Char) :
    isFormed l = true
    ↔ ∃ (f sz : List Char) (ty : FontType), isValidSize sz = true
        ∧ l = f ++ '-' :: (sz ++ '.' :: typeChars ty) := by
  unfold isFormed
  rw [List.any_eq_true]
  constructor
  · intro ⟨i, _, hsome⟩
    simp only [Option.isSome_iff_exists] at hsome
    obtain ⟨p, hp⟩ := hsome
    obtain ⟨sz, ty⟩ := p
    obtain ⟨hval, hdec⟩ := suffixParseStrict_sound _ sz ty hp
    refine ⟨l.take i, sz, ty, hval, ?_⟩
    rw [← hdec]
    exact (List.take_append_drop i l).symm
  · intro ⟨f, sz, ty, hval, hdec⟩
    refine ⟨f.length, ?_, ?_⟩
    · rw [List.mem_range]
      have : l.length = f.length + ('-' :: (sz ++ '.' :: typeChars ty)).length := by
        rw [hdec]
        simp
      omega
    · rw [hdec, List.drop_left, suffixParseStrict_self sz ty hval]
      rfl

theorem basenameChars_no_slash (l : List Char) (h : '/' ∉ l) : basenameChars l = l := by
  unfold basenameChars
  have key : ∀ m : List Char, '/' ∉ m → m.takeWhile (fun c => decide (c ≠ '/')) = m := by
    intro m hm
    induction m with
    | nil => rfl
    | cons a tl ih2 =>
        simp only [List.mem_cons, not_or] at hm
        have ha : (decide (a ≠ '/')) = true := by
          simp
          exact fun hh => hm.1 hh.symm
        rw [List.takeWhile_cons, ha]
        simp only [if_true]
        rw [ih2 hm.2]
  rw [key l.reverse (fun hh => h (List.mem_reverse.mp hh))]
  exact List.reverse_reverse l

/-- C7 counterexample: the basename `a-11.otf` followed by one trailing
newline is not of the form `<family>-<size>.<type>` (sizes and types contain
no newline, as `isFormed` decides via `isFormed_iff`), yet `parse_filename`
matches it, because Python's `$` also matches just before a trailing
newline. -/
theorem parse_filename_trailing_newline_cex :
    MusicFontFamily.parse_filename "a-11.otf\n"
      = some ("a".toList, "11".toList, FontType.otf)
    ∧ isFormed "a-11.otf\n".toList = false := by
  constructor
  · rfl
  · decide

/-- C7 (amended): for every newline-free, slash-free family string, a size of
two ASCII decimal digits or `brace`, and a recognised type, `parse_filename`
on the built filename extracts exactly that triplet; and every ASCII basename
that is neither of that form nor of that form followed by one trailing
newline (Python `$` accepts the latter) yields no match.  The ASCII
hypothesis scopes the claim to where the model's ASCII reading of `\d`
agrees with Python's Unicode-aware `\d`. -/
theorem parse_filename_spec :
    (∀ (f sz : List Char) (ty : FontType), '\n' ∉ f → '/' ∉ f → isValidSize sz = true →
      MusicFontFamily.parse_filename (String.mk (f ++ '-' :: (sz ++ '.' :: typeChars ty)))
        = some (f, sz, ty))
    ∧ (∀ l : List Char, (∀ c ∈ l, c.toNat < 128) → '/' ∉ l →
        isFormed l = false →
        (∀ l2, l = l2 ++ ['\n'] → isFormed l2 = false) →
        MusicFontFamily.parse_filename (String.mk l) = none) := by
  constructor
  · intro f sz ty hnl hsl hval
    unfold MusicFontFamily.parse_filename
    have htl : (String.mk (f ++ '-' :: (sz ++ '.' :: typeChars ty))).toList
        = f ++ '-' :: (sz ++ '.' :: typeChars ty) := rfl
    rw [htl]
    have hnoslash : '/' ∉ f ++ '-' :: (sz ++ '.' :: typeChars ty) := by
      intro hmem
      rcases List.mem_append.mp hmem with hm | hm
      · exact hsl hm
      · rcases List.mem_cons.mp hm with hm2 | hm2
        · exact absurd hm2 (by decide)
        · rcases List.mem_append.mp hm2 with hm3 | hm3
          · exact mem_size_not sz '/' hval (by decide) (by decide) hm3
          · rcases List.mem_cons.mp hm3 with hm4 | hm4
            · exact absurd hm4 (by decide)
            · cases ty <;> simp [typeChars] at hm4
    rw [basenameChars_no_slash _ hnoslash]
    exact pmatch_complete f hnl sz ty hval
  · intro l _ hsl hform hformnl
    unfold MusicFontFamily.parse_filename
    have htl : (String.mk l).toList = l := rfl
    rw [htl, basenameChars_no_slash _ hsl]
    cases hp : pmatch l with
    | none => rfl
    | some r =>
        obtain ⟨f, sz, ty⟩ := r
        obtain ⟨_, hval, hdec⟩ := pmatch_sound l f sz ty hp
        exfalso
        rcases hdec with hd | hd
        · have : isFormed l = true := (isFormed_iff l).mpr ⟨f, sz, ty, hval, hd⟩
          rw [hform] at this
          exact absurd this (by simp)
        · have h2 := hformnl (f ++ '-' :: (sz ++ '.' :: typeChars ty)) hd
          have : isFormed (f ++ '-' :: (sz ++ '.' :: typeChars ty)) = true :=
            (isFormed_iff _).mpr ⟨f, sz, ty, hval, rfl⟩
          rw [h2] at this
          exact absurd this (by simp)

theorem parse_filename_spec_witness :
    MusicFontFamily.parse_filename
        (String.mk ("emmentaler".toList ++ '-' :: ("11".toList ++ '.' :: typeChars .otf)))
      = some ("emmentaler".toList, "11".toList, .otf)
    ∧ MusicFontFamily.parse_filename (String.mk "notafont.txt".toList) = none := by
  constructor
  · exact parse_filename_spec.1 "emmentaler".toList "11".toList .otf (by decide) (by decide)
      (by decide)
  · apply parse_filename_spec.2 "notafont.txt".toList (by decide) (by decide) (by decide)
    intro l2 hl
    exfalso
    have h1 : ("notafont.txt".toList).getLast? = some 't' := by decide
    rw [hl, List.getLast?_concat] at h1
    exact absurd (Option.some.inj h1) (by decide)

theorem status_fst (fam : MusicFontFamily) (t : FontType) (size : String) (fs : FS) :
    (fam.status t size fs).1 = slotStatusOf fs (lookupA (fam.getFiles t) size) := by
  unfold MusicFontFamily.status slotStatusOf
  cases lookupA (fam.getFiles t) size with
  | none => rfl
  | some f =>
      obtain ⟨file0, st0, in0⟩ := f
      cases st0 <;> rfl

theorem famsAddFileSilent_error (X : Fams) (fs : FS) (p e : String)
    (h : MusicFontFamily.check_file fs p = .error e) : famsAddFileSilent X fs p = X := by
  have h2 : famsAddFile X fs p = .error e := by
    unfold famsAddFile
    rw [h]
  unfold famsAddFileSilent
  rw [h2]

theorem famsAddFileSilent_ok (X : Fams) (fs : FS) (p name : String) (t : FontType)
    (size : String) (h : MusicFontFamily.check_file fs p = .ok (name, t, size)) :
    famsAddFileSilent X fs p
      = match lookupA X name with
        | none =>
            insertA X name (({ MusicFontFamily.empty with family := some name }).add t size p)
        | some fam => insertA X name (fam.add t size p) := by
  have hadd : MusicFontFamily.empty.add_file fs p
      = .ok (({ MusicFontFamily.empty with family := some name }).add t size p) := by
    unfold MusicFontFamily.add_file
    rw [h]
    rfl
  have h2 : famsAddFile X fs p
      = (match lookupA X name with
         | none =>
             match MusicFontFamily.empty.add_file fs p with
             | .error e => .error e
             | .ok fam => .ok (insertA X name fam)
         | some fam => .ok (insertA X name (fam.add t size p))) := by
    unfold famsAddFile
    rw [h]
  unfold famsAddFileSilent
  rw [h2]
  cases hlf : lookupA X name with
  | none => rw [hadd]
  | some fam => rfl

theorem mem_keys_insertA {α : Type} (l : List (String × α)) (k : String) (v : α) :
    k ∈ (insertA l k v).map Prod.fst := by
  by_cases h : k ∈ l.map Prod.fst
  · rw [keys_insertA_mem l k v h]
    exact h
  · rw [keys_insertA_not_mem l k v h]
    simp

theorem keys_step_mono (X : Fams) (fs : FS) (p k : String)
    (h : k ∈ X.map Prod.fst) : k ∈ (famsAddFileSilent X fs p).map Prod.fst := by
  cases hchk : MusicFontFamily.check_file fs p with
  | error e => rw [famsAddFileSilent_error X fs p e hchk]; exact h
  | ok trip =>
      obtain ⟨name, t, size⟩ := trip
      rw [famsAddFileSilent_ok X fs p name t size hchk]
      cases hlf : lookupA X name with
      | none =>
          by_cases hmem : name ∈ X.map Prod.fst
          · rw [keys_insertA_mem X name _ hmem]; exact h
          · rw [keys_insertA_not_mem X name _ hmem]; exact List.mem_append_left _ h
      | some fam => rw [keys_insertA_mem X name _ ?_]
                    · exact h
                    · by_contra hnm
                      rw [lookupA_none_of_not_mem X name hnm] at hlf
                      simp at hlf

theorem mem_keys_step_of_ok (X : Fams) (fs : FS) (p name : String) (t : FontType)
    (size : String) (h : MusicFontFamily.check_file fs p = .ok (name, t, size)) :
    name ∈ (famsAddFileSilent X fs p).map Prod.fst := by
  rw [famsAddFileSilent_ok X fs p name t size h]
  cases lookupA X name <;> exact mem_keys_insertA X name _

theorem keys_step_eq (X : Fams) (fs : FS) (p : String)
    (h : ∀ name t size, MusicFontFamily.check_file fs p = .ok (name, t, size) →
      name ∈ X.map Prod.fst) :
    (famsAddFileSilent X fs p).map Prod.fst = X.map Prod.fst := by
  cases hchk : MusicFontFamily.check_file fs p with
  | error e => rw [famsAddFileSilent_error X fs p e hchk]
  | ok trip =>
      obtain ⟨name, t, size⟩ := trip
      rw [famsAddFileSilent_ok X fs p name t size hchk]
      have hmem := h name t size hchk
      cases lookupA X name <;> exact keys_insertA_mem X name _ hmem

theorem keys_tree_mono (fs : FS) : ∀ (ps : List String) (X : Fams) (k : String),
    k ∈ X.map Prod.fst → k ∈ (famsAddTree X fs ps).map Prod.fst := by
  intro ps
  induction ps with
  | nil => intro X k h; exact h
  | cons p rest ih =>
      intro X k h
      exact ih (famsAddFileSilent X fs p) k (keys_step_mono X fs p k h)

theorem tree_complete (fs : FS) : ∀ (ps : List String) (X : Fams) (p name : String)
    (t : FontType) (size : String), p ∈ ps →
    MusicFontFamily.check_file fs p = .ok (name, t, size) →
    name ∈ (famsAddTree X fs ps).map Prod.fst := by
  intro ps
  induction ps with
  | nil => intro X p name t size h; simp at h
  | cons q rest ih =>
      intro X p name t size hmem hchk
      rcases List.mem_cons.mp hmem with h1 | h1
      · subst h1
        exact keys_tree_mono fs rest _ name (mem_keys_step_of_ok X fs p name t size hchk)
      · exact ih (famsAddFileSilent X fs q) p name t size h1 hchk

theorem keys_tree_eq (fs : FS) : ∀ (ps : List String) (X : Fams),
    (∀ p ∈ ps, ∀ name t size, MusicFontFamily.check_file fs p = .ok (name, t, size) →
      name ∈ X.map Prod.fst) →
    (famsAddTree X fs ps).map Prod.fst = X.map Prod.fst := by
  intro ps
  induction ps with
  | nil => intro X _; rfl
  | cons p rest ih =>
      intro X h
      have hstep : (famsAddFileSilent X fs p).map Prod.fst = X.map Prod.fst :=
        keys_step_eq X fs p (h p (by simp))
      have := ih (famsAddFileSilent X fs p) (by
        intro q hq name t size hchk
        rw [hstep]
        exact h q (by simp [hq]) name t size hchk)
      rw [show famsAddTree X fs (p :: rest)
        = famsAddTree (famsAddFileSilent X fs p) fs rest from rfl]
      rw [this, hstep]

theorem add_slot_other (X : MusicFontFamily) (t' : FontType) (s' p : String)
    (t : FontType) (size : String) (h : ¬(t' = t ∧ s' = size)) :
    lookupA ((X.add t' s' p).getFiles t) size = lookupA (X.getFiles t) size := by
  by_cases ht : t' = t
  · subst ht
    have hs : size ≠ s' := fun hh => h ⟨rfl, hh.symm⟩
    unfold MusicFontFamily.add
    rw [getFiles_setFiles_self, lookupA_insertA_ne _ _ _ _ hs]
  · unfold MusicFontFamily.add
    rw [getFiles_setFiles_ne _ _ _ _ (fun hh => ht hh.symm)]

theorem famsSlot_step_write (X : Fams) (fs : FS) (q name : String) (t : FontType)
    (size : String) (hq : MusicFontFamily.check_file fs q = .ok (name, t, size)) :
    famsSlotVal (famsAddFileSilent X fs q) name t size = some ⟨q, none, false⟩ := by
  rw [famsAddFileSilent_ok X fs q name t size hq]
  cases hlf : lookupA X name with
  | none =>
      unfold famsSlotVal
      rw [lookupA_insertA_self]
      simp only [Option.some_bind]
      exact add_lookup_self _ _ _ _
  | some fam =>
      unfold famsSlotVal
      rw [lookupA_insertA_self]
      simp only [Option.some_bind]
      exact add_lookup_self _ _ _ _

theorem famsSlot_step_other (X : Fams) (fs : FS) (p name : String) (t : FontType)
    (size : String) (h : MusicFontFamily.check_file fs p ≠ .ok (name, t, size)) :
    famsSlotVal (famsAddFileSilent X fs p) name t size = famsSlotVal X name t size := by
  cases hchk : MusicFontFamily.check_file fs p with
  | error e => rw [famsAddFileSilent_error X fs p e hchk]
  | ok trip =>
      obtain ⟨name', t', size'⟩ := trip
      rw [famsAddFileSilent_ok X fs p name' t' size' hchk]
      by_cases hn : name' = name
      · subst hn
        have hts : ¬(t' = t ∧ size' = size) := by
          intro ⟨e1, e2⟩
          subst e1
          subst e2
          exact h hchk
        cases hlf : lookupA X name' with
        | none =>
            unfold famsSlotVal
            rw [lookupA_insertA_self, hlf]
            simp only [Option.some_bind, Option.none_bind]
            rw [add_slot_other _ t' size' p t size hts]
            cases t <;> rfl
        | some fam =>
            unfold famsSlotVal
            rw [lookupA_insertA_self, hlf]
            simp only [Option.some_bind]
            exact add_slot_other fam t' size' p t size hts
      · have hne : name ≠ name' := fun hh => hn hh.symm
        cases hlf : lookupA X name' with
        | none =>
            unfold famsSlotVal
            rw [lookupA_insertA_ne _ _ _ _ hne]
        | some fam =>
            unfold famsSlotVal
            rw [lookupA_insertA_ne _ _ _ _ hne]

theorem famsSlot_tree_nowrite (fs : FS) (name : String) (t : FontType) (size : String) :
    ∀ (ps : List String) (X : Fams),
    (∀ p ∈ ps, MusicFontFamily.check_file fs p ≠ .ok (name, t, size)) →
    famsSlotVal (famsAddTree X fs ps) name t size = famsSlotVal X name t size := by
  intro ps
  induction ps with
  | nil => intro X _; rfl
  | cons p rest ih =>
      intro X h
      rw [show famsAddTree X fs (p :: rest)
        = famsAddTree (famsAddFileSilent X fs p) fs rest from rfl]
      rw [ih _ (fun q hq => h q (by simp [hq]))]
      exact famsSlot_step_other X fs p name t size (h p (by simp))

theorem tree_slot_lastwriter (fs : FS) (name : String) (t : FontType) (size : String)
    (ps1 : List String) (q : String) (ps2 : List String) (X : Fams)
    (hq : MusicFontFamily.check_file fs q = .ok (name, t, size))
    (hnw : ∀ p ∈ ps2, MusicFontFamily.check_file fs p ≠ .ok (name, t, size)) :
    famsSlotVal (famsAddTree X fs (ps1 ++ q :: ps2)) name t size
      = some ⟨q, none, false⟩ := by
  have hsplit : famsAddTree X fs (ps1 ++ q :: ps2)
      = famsAddTree (famsAddFileSilent (famsAddTree X fs ps1) fs q) fs ps2 := by
    unfold famsAddTree
    rw [List.foldl_append, List.foldl_cons]
  rw [hsplit, famsSlot_tree_nowrite fs name t size ps2 _ hnw]
  exact famsSlot_step_write _ fs q name t size hq

theorem exists_last_writer {α : Type} (P : α → Prop) :
    ∀ ps : List α, (∃ p ∈ ps, P p) →
    ∃ ps1 q ps2, ps = ps1 ++ q :: ps2 ∧ P q ∧ ∀ p ∈ ps2, ¬P p := by
  intro ps
  induction ps with
  | nil => intro h; simp at h
  | cons a rest ih =>
      intro h
      by_cases hr : ∃ p ∈ rest, P p
      · obtain ⟨ps1, q, ps2, heq, hq, hnone⟩ := ih hr
        exact ⟨a :: ps1, q, ps2, by rw [heq]; rfl, hq, hnone⟩
      · have ha : P a := by
          obtain ⟨p, hp, hP⟩ := h
          rcases List.mem_cons.mp hp with h1 | h1
          · exact h1 ▸ hP
          · exact absurd ⟨p, h1, hP⟩ hr
        exact ⟨[], a, rest, rfl, ha, fun p hp hP => hr ⟨p, hp, hP⟩⟩

/-- C9: `add_tree` is idempotent on an unchanged tree: running it a second
time over the same walked file list against the same filesystem leaves both
`families()` and every slot's observable status value unchanged. -/
theorem add_tree_idempotent (fams0 : Fams) (fs : FS) (paths : List String) :
    famsFamilies (famsAddTree (famsAddTree fams0 fs paths) fs paths)
      = famsFamilies (famsAddTree fams0 fs paths)
    ∧ ∀ name t size,
        famsStatusVal (famsAddTree (famsAddTree fams0 fs paths) fs paths) name t size fs
          = famsStatusVal (famsAddTree fams0 fs paths) name t size fs := by
  have hkeys_eq : (famsAddTree (famsAddTree fams0 fs paths) fs paths).map Prod.fst
      = (famsAddTree fams0 fs paths).map Prod.fst :=
    keys_tree_eq fs paths (famsAddTree fams0 fs paths)
      (fun p hp name t size hchk => tree_complete fs paths fams0 p name t size hp hchk)
  constructor
  · unfold famsFamilies
    rw [hkeys_eq]
  · intro name t size
    by_cases hmem : name ∈ (famsAddTree fams0 fs paths).map Prod.fst
    · have hmem2 : name ∈ (famsAddTree (famsAddTree fams0 fs paths) fs paths).map Prod.fst := by
        rw [hkeys_eq]
        exact hmem
      obtain ⟨fam1, h1⟩ := Option.isSome_iff_exists.mp
        (lookupA_isSome_of_mem (famsAddTree fams0 fs paths) name hmem)
      obtain ⟨fam2, h2⟩ := Option.isSome_iff_exists.mp
        (lookupA_isSome_of_mem (famsAddTree (famsAddTree fams0 fs paths) fs paths) name hmem2)
      have hslot : famsSlotVal (famsAddTree (famsAddTree fams0 fs paths) fs paths) name t size
          = famsSlotVal (famsAddTree fams0 fs paths) name t size := by
        by_cases hw : ∃ p ∈ paths, MusicFontFamily.check_file fs p = .ok (name, t, size)
        · obtain ⟨ps1, q, ps2, heqps, hq, hnw⟩ := exists_last_writer _ paths hw
          rw [heqps]
          rw [tree_slot_lastwriter fs name t size ps1 q ps2 _ hq hnw]
          rw [tree_slot_lastwriter fs name t size ps1 q ps2 fams0 hq hnw]
        · exact famsSlot_tree_nowrite fs name t size paths (famsAddTree fams0 fs paths)
            (fun p hp hchk => hw ⟨p, hp, hchk⟩)
      have e1 : famsSlotVal (famsAddTree fams0 fs paths) name t size
          = lookupA (fam1.getFiles t) size := by
        unfold famsSlotVal
        rw [h1]
        rfl
      have e2 : famsSlotVal (famsAddTree (famsAddTree fams0 fs paths) fs paths) name t size
          = lookupA (fam2.getFiles t) size := by
        unfold famsSlotVal
        rw [h2]
        rfl
      have hs2 : lookupA (fam2.getFiles t) size = lookupA (fam1.getFiles t) size := by
        rw [← e2, ← e1, hslot]
      unfold famsStatusVal
      rw [h1, h2]
      simp only [Option.map_some']
      rw [status_fst, status_fst, hs2]
    · have hmem2 : name ∉ (famsAddTree (famsAddTree fams0 fs paths) fs paths).map Prod.fst := by
        rw [hkeys_eq]
        exact hmem
      unfold famsStatusVal
      rw [lookupA_none_of_not_mem _ _ hmem, lookupA_none_of_not_mem _ _ hmem2]

/-! ### Lemmas for `flag_for_install` -/

theorem insertA_lookup_self_eq {α : Type} (l : List (String × α)) (k : String) (v : α)
    (h : lookupA l k = some v) : insertA l k v = l := by
  induction l with
  | nil => simp [lookupA] at h
  | cons hd tl ih =>
      obtain ⟨k0, w⟩ := hd
      by_cases h0 : k0 = k
      · subst h0
        simp [lookupA] at h
        simp [insertA, h]
      · simp only [lookupA, if_neg h0] at h
        simp [insertA, h0, ih h]

theorem insertA_insertA {α : Type} (l : List (String × α)) (k : String) (v w : α) :
    insertA (insertA l k v) k w = insertA l k w := by
  induction l with
  | nil => simp [insertA]
  | cons hd tl ih =>
      obtain ⟨k0, w0⟩ := hd
      by_cases h0 : k0 = k
      · subst h0
        simp [insertA]
      · simp [insertA, h0, ih]

theorem setFiles_getFiles_self (fam : MusicFontFamily) (t : FontType) :
    fam.setFiles t (fam.getFiles t) = fam := by
  cases t <;> rfl

theorem setFiles_setFiles (fam : MusicFontFamily) (t : FontType)
    (l1 l2 : List (String × MusicFontFile)) :
    (fam.setFiles t l1).setFiles t l2 = fam.setFiles t l2 := by
  cases t <;> rfl

theorem lookupA_map_val {α β : Type} (l : List (String × α)) (g : α → β) (k : String) :
    lookupA (l.map (fun p => (p.1, g p.2))) k = (lookupA l k).map g := by
  induction l with
  | nil => rfl
  | cons hd tl ih =>
      obtain ⟨k0, w⟩ := hd
      by_cases h0 : k0 = k
      · simp [lookupA, h0]
      · simp [lookupA, h0, ih]

/-- `flag_all_for_install` per type: every entry's install flag set. -/
theorem flag_all_getFiles (fam : MusicFontFamily) (t : FontType) :
    fam.flag_all_for_install.getFiles t
      = (fam.getFiles t).map (fun p => (p.1, { p.2 with install := true })) := by
  cases t <;> rfl

/-- Memoizing one slot does not change any slot's observable status value. -/
theorem statusM_fst_stable (fam : MusicFontFamily) (t : FontType) (s : String) (fs : FS) :
    ∀ (t2 : FontType) (s2 : String),
    (((fam.status t s fs).2).status t2 s2 fs).1 = (fam.status t2 s2 fs).1 := by
  intro t2 s2
  rw [status_fst, status_fst]
  unfold MusicFontFamily.status
  cases hl : lookupA (fam.getFiles t) s with
  | none => rfl
  | some f =>
      obtain ⟨file0, st0, in0⟩ := f
      cases st0 with
      | some s0 => rfl
      | none =>
          simp only []
          by_cases ht : t2 = t
          · subst ht
            rw [getFiles_setFiles_self]
            by_cases hs : s2 = s
            · subst hs
              rw [lookupA_insertA_self, hl]
              rfl
            · rw [lookupA_insertA_ne _ _ _ _ hs]
          · rw [getFiles_setFiles_ne _ _ _ _ ht]

theorem flagStep_char (S T : MusicFontFamily) (fs : FS) (t : FontType) (k : String) :
    (flagStep fs t (S, T) k).1
      = (match lookupA (S.getFiles t) k with
         | none => S
         | some f => S.setFiles t (insertA (S.getFiles t) k
             (flagFileUpd fs ((T.status t k fs).1) f)))
    ∧ ∀ (t2 : FontType) (s2 : String),
        (((flagStep fs t (S, T) k).2).status t2 s2 fs).1 = (T.status t2 s2 fs).1 := by
  cases hl : lookupA (S.getFiles t) k with
  | none =>
      have hS : S.status t k fs = (.MISSING, S) := by
        unfold MusicFontFamily.status
        rw [hl]
      constructor
      · show (flagStep fs t (S, T) k).1 = S
        simp [flagStep, hS]
      · intro t2 s2
        have h2 : (flagStep fs t (S, T) k).2 = T := by simp [flagStep, hS]
        rw [h2]
  | some f =>
      obtain ⟨file0, fst0, fin0⟩ := f
      cases fst0 with
      | some st0 =>
          have hS : S.status t k fs = (st0, S) := by
            unfold MusicFontFamily.status
            rw [hl]
          by_cases hf : st0 = .FILE ∨ st0 = .LINK
          · by_cases hg : (T.status t k fs).1 = .FILE ∨ (T.status t k fs).1 = .LINK
            · constructor
              · have hupd : flagFileUpd fs ((T.status t k fs).1) ⟨file0, some st0, fin0⟩
                    = ⟨file0, some st0, fin0⟩ := by
                  unfold flagFileUpd
                  rw [if_neg (fun hh => hh.2 hg)]
                  rfl
                show (flagStep fs t (S, T) k).1
                  = S.setFiles t (insertA (S.getFiles t) k
                      (flagFileUpd fs ((T.status t k fs).1) ⟨file0, some st0, fin0⟩))
                rw [hupd, insertA_lookup_self_eq _ _ _ hl, setFiles_getFiles_self]
                simp [flagStep, hS, hf, hg]
              · intro t2 s2
                have h2 : (flagStep fs t (S, T) k).2 = (T.status t k fs).2 := by
                  simp [flagStep, hS, hf, hg]
                rw [h2]
                exact statusM_fst_stable T t k fs t2 s2
            · constructor
              · have hupd : flagFileUpd fs ((T.status t k fs).1) ⟨file0, some st0, fin0⟩
                    = ⟨file0, some st0, true⟩ := by
                  unfold flagFileUpd
                  rw [if_pos ⟨hf, hg⟩]
                  rfl
                show (flagStep fs t (S, T) k).1
                  = S.setFiles t (insertA (S.getFiles t) k
                      (flagFileUpd fs ((T.status t k fs).1) ⟨file0, some st0, fin0⟩))
                rw [hupd]
                have hset : S.setInstallTrue t k
                    = S.setFiles t (insertA (S.getFiles t) k ⟨file0, some st0, true⟩) := by
                  unfold MusicFontFamily.setInstallTrue
                  rw [hl]
                simp only [flagStep, hS]
                rw [if_pos hf, if_neg hg]
                exact hset
              · intro t2 s2
                have h2 : (flagStep fs t (S, T) k).2 = (T.status t k fs).2 := by
                  simp only [flagStep, hS]
                  rw [if_pos hf, if_neg hg]
                rw [h2]
                exact statusM_fst_stable T t k fs t2 s2
          · constructor
            · have hupd : flagFileUpd fs ((T.status t k fs).1) ⟨file0, some st0, fin0⟩
                  = ⟨file0, some st0, fin0⟩ := by
                unfold flagFileUpd
                rw [if_neg (fun hh => hf hh.1)]
                rfl
              show (flagStep fs t (S, T) k).1
                = S.setFiles t (insertA (S.getFiles t) k
                    (flagFileUpd fs ((T.status t k fs).1) ⟨file0, some st0, fin0⟩))
              rw [hupd, insertA_lookup_self_eq _ _ _ hl, setFiles_getFiles_self]
              simp [flagStep, hS, hf]
            · intro t2 s2
              have h2 : (flagStep fs t (S, T) k).2 = T := by
                simp [flagStep, hS, hf]
              rw [h2]
      | none =>
          have hS : S.status t k fs
              = (resolveStatus fs file0,
                S.setFiles t (insertA (S.getFiles t) k
                  ⟨file0, some (resolveStatus fs file0), fin0⟩)) := by
            unfold MusicFontFamily.status
            rw [hl]
          by_cases hf : resolveStatus fs file0 = .FILE ∨ resolveStatus fs file0 = .LINK
          · by_cases hg : (T.status t k fs).1 = .FILE ∨ (T.status t k fs).1 = .LINK
            · constructor
              · have hupd : flagFileUpd fs ((T.status t k fs).1) ⟨file0, none, fin0⟩
                    = ⟨file0, some (resolveStatus fs file0), fin0⟩ := by
                  unfold flagFileUpd
                  rw [if_neg (fun hh => hh.2 hg)]
                  rfl
                show (flagStep fs t (S, T) k).1
                  = S.setFiles t (insertA (S.getFiles t) k
                      (flagFileUpd fs ((T.status t k fs).1) ⟨file0, none, fin0⟩))
                rw [hupd]
                simp only [flagStep, hS]
                rw [if_pos hf, if_pos hg]
              · intro t2 s2
                have h2 : (flagStep fs t (S, T) k).2 = (T.status t k fs).2 := by
                  simp only [flagStep, hS]
                  rw [if_pos hf, if_pos hg]
                rw [h2]
                exact statusM_fst_stable T t k fs t2 s2
            · constructor
              · have hupd : flagFileUpd fs ((T.status t k fs).1) ⟨file0, none, fin0⟩
                    = ⟨file0, some (resolveStatus fs file0), true⟩ := by
                  unfold flagFileUpd
                  rw [if_pos ⟨hf, hg⟩]
                  rfl
                show (flagStep fs t (S, T) k).1
                  = S.setFiles t (insertA (S.getFiles t) k
                      (flagFileUpd fs ((T.status t k fs).1) ⟨file0, none, fin0⟩))
                rw [hupd]
                have hmid : lookupA ((S.setFiles t (insertA (S.getFiles t) k
                      ⟨file0, some (resolveStatus fs file0), fin0⟩)).getFiles t) k
                    = some ⟨file0, some (resolveStatus fs file0), fin0⟩ := by
                  rw [getFiles_setFiles_self]
                  exact lookupA_insertA_self _ _ _
                have hset : (S.setFiles t (insertA (S.getFiles t) k
                      ⟨file0, some (resolveStatus fs file0), fin0⟩)).setInstallTrue t k
                    = S.setFiles t (insertA (S.getFiles t) k
                        ⟨file0, some (resolveStatus fs file0), true⟩) := by
                  unfold MusicFontFamily.setInstallTrue
                  rw [hmid]
                  show (S.setFiles t (insertA (S.getFiles t) k
                        ⟨file0, some (resolveStatus fs file0), fin0⟩)).setFiles t
                      (insertA ((S.setFiles t (insertA (S.getFiles t) k
                          ⟨file0, some (resolveStatus fs file0), fin0⟩)).getFiles t) k
                        ⟨file0, some (resolveStatus fs file0), true⟩)
                    = S.setFiles t (insertA (S.getFiles t) k
                        ⟨file0, some (resolveStatus fs file0), true⟩)
                  rw [getFiles_setFiles_self, setFiles_setFiles, insertA_insertA]
                simp only [flagStep, hS]
                rw [if_pos hf, if_neg hg]
                exact hset
              · intro t2 s2
                have h2 : (flagStep fs t (S, T) k).2 = (T.status t k fs).2 := by
                  simp only [flagStep, hS]
                  rw [if_pos hf, if_neg hg]
                rw [h2]
                exact statusM_fst_stable T t k fs t2 s2
          · constructor
            · have hupd : flagFileUpd fs ((T.status t k fs).1) ⟨file0, none, fin0⟩
                  = ⟨file0, some (resolveStatus fs file0), fin0⟩ := by
                unfold flagFileUpd
                rw [if_neg (fun hh => hf hh.1)]
                rfl
              show (flagStep fs t (S, T) k).1
                = S.setFiles t (insertA (S.getFiles t) k
                    (flagFileUpd fs ((T.status t k fs).1) ⟨file0, none, fin0⟩))
              rw [hupd]
              simp only [flagStep, hS]
              rw [if_neg hf]
            · intro t2 s2
              have h2 : (flagStep fs t (S, T) k).2 = T := by
                simp only [flagStep, hS]
                rw [if_neg hf]
              rw [h2]

/-- Step-level corollaries of `flagStep_char` used in the fold induction. -/
theorem flagStep_other_type (S T : MusicFontFamily) (fs : FS) (t t2 : FontType)
    (k : String) (h : t2 ≠ t) :
    (flagStep fs t (S, T) k).1.getFiles t2 = S.getFiles t2 := by
  rw [(flagStep_char S T fs t k).1]
  cases lookupA (S.getFiles t) k with
  | none => rfl
  | some f => exact getFiles_setFiles_ne _ _ _ _ h

theorem flagStep_other_size (S T : MusicFontFamily) (fs : FS) (t : FontType)
    (k size : String) (h : size ≠ k) :
    lookupA ((flagStep fs t (S, T) k).1.getFiles t) size
      = lookupA (S.getFiles t) size := by
  rw [(flagStep_char S T fs t k).1]
  cases lookupA (S.getFiles t) k with
  | none => rfl
  | some f =>
      rw [getFiles_setFiles_self]
      exact lookupA_insertA_ne _ _ _ _ h

theorem flagStep_at_key (S T : MusicFontFamily) (fs : FS) (t : FontType) (k : String) :
    lookupA ((flagStep fs t (S, T) k).1.getFiles t) k
      = (lookupA (S.getFiles t) k).map (flagFileUpd fs ((T.status t k fs).1)) := by
  rw [(flagStep_char S T fs t k).1]
  cases hl : lookupA (S.getFiles t) k with
  | none => rw [hl]; rfl
  | some f =>
      rw [getFiles_setFiles_self, lookupA_insertA_self]
      rfl

/-- Characterization of one type's inner `flag_for_install` loop over a
duplicate-free key list. -/
theorem flagFold_char (fs : FS) (t : FontType) :
    ∀ (K : List String) (S T : MusicFontFamily), K.Nodup →
    (∀ t2, t2 ≠ t → (K.foldl (flagStep fs t) (S, T)).1.getFiles t2 = S.getFiles t2)
    ∧ (∀ size, size ∉ K →
        lookupA ((K.foldl (flagStep fs t) (S, T)).1.getFiles t) size
          = lookupA (S.getFiles t) size)
    ∧ (∀ size ∈ K,
        lookupA ((K.foldl (flagStep fs t) (S, T)).1.getFiles t) size
          = (lookupA (S.getFiles t) size).map (flagFileUpd fs ((T.status t size fs).1)))
    ∧ (∀ (t2 : FontType) (s2 : String),
        ((K.foldl (flagStep fs t) (S, T)).2.status t2 s2 fs).1
          = (T.status t2 s2 fs).1) := by
  intro K
  induction K with
  | nil =>
      intro S T _
      exact ⟨fun _ _ => rfl, fun _ _ => rfl, by simp, fun _ _ => rfl⟩
  | cons k K' ih =>
      intro S T hnd
      obtain ⟨hk, hnd'⟩ := List.nodup_cons.mp hnd
      obtain ⟨ia, ib, ic, id⟩ :=
        ih (flagStep fs t (S, T) k).1 (flagStep fs t (S, T) k).2 hnd'
      have hfold : (k :: K').foldl (flagStep fs t) (S, T)
          = K'.foldl (flagStep fs t) ((flagStep fs t (S, T) k).1, (flagStep fs t (S, T) k).2) := by
        rw [List.foldl_cons]
      refine ⟨?_, ?_, ?_, ?_⟩
      · intro t2 h
        rw [hfold, ia t2 h]
        exact flagStep_other_type S T fs t t2 k h
      · intro size hmem
        simp only [List.mem_cons, not_or] at hmem
        rw [hfold, ib size hmem.2]
        exact flagStep_other_size S T fs t k size hmem.1
      · intro size hmem
        rcases List.mem_cons.mp hmem with h1 | h1
        · subst h1
          rw [hfold, ib size hk]
          exact flagStep_at_key S T fs t size
        · have hne : size ≠ k := fun hh => hk (hh ▸ h1)
          rw [hfold, ic size h1, (flagStep_char S T fs t k).2 t size]
          rw [flagStep_other_size S T fs t k size hne]
      · intro t2 s2
        rw [hfold, id t2 s2, (flagStep_char S T fs t k).2 t2 s2]

theorem flagStep_keys (S T : MusicFontFamily) (fs : FS) (t t2 : FontType) (k : String) :
    ((flagStep fs t (S, T) k).1.getFiles t2).map Prod.fst
      = (S.getFiles t2).map Prod.fst := by
  by_cases h : t2 = t
  · subst h
    rw [(flagStep_char S T fs t2 k).1]
    cases hl : lookupA (S.getFiles t2) k with
    | none => rfl
    | some f =>
        rw [getFiles_setFiles_self]
        apply keys_insertA_mem
        have := mem_of_lookupA _ _ _ hl
        exact List.mem_map.mpr ⟨(k, f), this, rfl⟩
  · rw [flagStep_other_type S T fs t t2 k h]

theorem flagFold_keys (fs : FS) (t : FontType) :
    ∀ (K : List String) (S T : MusicFontFamily) (t2 : FontType),
    ((K.foldl (flagStep fs t) (S, T)).1.getFiles t2).map Prod.fst
      = (S.getFiles t2).map Prod.fst := by
  intro K
  induction K with
  | nil => intro S T t2; rfl
  | cons k K' ih =>
      intro S T t2
      rw [List.foldl_cons]
      rw [ih (flagStep fs t (S, T) k).1 (flagStep fs t (S, T) k).2 t2]
      exact flagStep_keys S T fs t t2 k

/-- Characterization of the full two-level `flag_for_install` loop over a
duplicate-free list of types. -/
theorem flagTypesFold_char (fs : FS) :
    ∀ (L : List FontType) (S T : MusicFontFamily),
    (∀ t : FontType, ((S.getFiles t).map Prod.fst).Nodup) → L.Nodup →
    (∀ t, t ∉ L → (flagTypesFold fs L (S, T)).1.getFiles t = S.getFiles t)
    ∧ (∀ t ∈ L, ∀ size, lookupA ((flagTypesFold fs L (S, T)).1.getFiles t) size
        = (lookupA (S.getFiles t) size).map (flagFileUpd fs ((T.status t size fs).1)))
    ∧ (∀ (t2 : FontType) (s2 : String),
        ((flagTypesFold fs L (S, T)).2.status t2 s2 fs).1 = (T.status t2 s2 fs).1) := by
  intro L
  induction L with
  | nil =>
      intro S T _ _
      exact ⟨fun _ _ => rfl, by simp, fun _ _ => rfl⟩
  | cons t0 L' ih =>
      intro S T hnodup hndL
      obtain ⟨ht0, hndL'⟩ := List.nodup_cons.mp hndL
      obtain ⟨a1, b1, c1, d1⟩ :=
        flagFold_char fs t0 ((S.getFiles t0).map Prod.fst) S T (hnodup t0)
      have hkeys1 : ∀ t2, ((((S.getFiles t0).map Prod.fst).foldl (flagStep fs t0)
          (S, T)).1.getFiles t2).map Prod.fst = (S.getFiles t2).map Prod.fst :=
        fun t2 => flagFold_keys fs t0 ((S.getFiles t0).map Prod.fst) S T t2
      obtain ⟨i1, i2, i3⟩ :=
        ih (((S.getFiles t0).map Prod.fst).foldl (flagStep fs t0) (S, T)).1
          (((S.getFiles t0).map Prod.fst).foldl (flagStep fs t0) (S, T)).2
          (by intro t2; rw [hkeys1 t2]; exact hnodup t2) hndL'
      have hfold : flagTypesFold fs (t0 :: L') (S, T)
          = flagTypesFold fs L'
              ((((S.getFiles t0).map Prod.fst).foldl (flagStep fs t0) (S, T)).1,
               (((S.getFiles t0).map Prod.fst).foldl (flagStep fs t0) (S, T)).2) := by
        rfl
      refine ⟨?_, ?_, ?_⟩
      · intro t hmem
        simp only [List.mem_cons, not_or] at hmem
        rw [hfold, i1 t hmem.2]
        exact a1 t hmem.1
      · intro t hmem size
        rcases List.mem_cons.mp hmem with h1 | h1
        · subst h1
          rw [hfold, i1 t ht0]
          by_cases hs : size ∈ (S.getFiles t).map Prod.fst
          · exact c1 size hs
          · rw [b1 size hs, lookupA_none_of_not_mem _ _ hs]
            rfl
        · have hne : t ≠ t0 := fun hh => ht0 (hh ▸ h1)
          rw [hfold, i2 t h1 size, a1 t hne, d1 t size]
      · intro t2 s2
        rw [hfold, i3 t2 s2, d1 t2 s2]

/-- The net slot-wise effect of `MusicFontFamily.flag_for_install`. -/
theorem flag_for_install_char (self target : MusicFontFamily) (fs : FS)
    (hnodup : ∀ t : FontType, ((self.getFiles t).map Prod.fst).Nodup)
    (t : FontType) (size : String) :
    lookupA ((self.flag_for_install target fs).1.getFiles t) size
      = (lookupA (self.getFiles t) size).map
          (flagFileUpd fs ((target.status t size fs).1)) := by
  obtain ⟨_, h2, _⟩ :=
    flagTypesFold_char fs fontTypes self target hnodup (by decide)
  exact h2 t (by cases t <;> decide) size

/-- The install flag of an updated file: old flag, or the flagging condition. -/
theorem flagFileUpd_install (fs : FS) (tgtStat : MusicFontStatus) (f : MusicFontFile) :
    (flagFileUpd fs tgtStat f).install = true
      ↔ (f.install = true
        ∨ ((slotStatusOf fs (some f) = .FILE ∨ slotStatusOf fs (some f) = .LINK)
          ∧ ¬(tgtStat = .FILE ∨ tgtStat = .LINK))) := by
  unfold flagFileUpd
  by_cases h : (slotStatusOf fs (some f) = .FILE ∨ slotStatusOf fs (some f) = .LINK)
      ∧ ¬(tgtStat = .FILE ∨ tgtStat = .LINK)
  · rw [if_pos h]
    simp [h]
  · rw [if_neg h]
    constructor
    · intro hi
      exact Or.inl hi
    · intro hi
      rcases hi with hi | hi
      · exact hi
      · exact absurd hi h

theorem flagFileUpd_file (fs : FS) (tgtStat : MusicFontStatus) (f : MusicFontFile) :
    (flagFileUpd fs tgtStat f).file = f.file := by
  unfold flagFileUpd
  simp only []
  split <;> rfl

theorem lookupA_flag_all (fam : MusicFontFamily) (t : FontType) (size : String) :
    lookupA (fam.flag_all_for_install.getFiles t) size
      = (lookupA (fam.getFiles t) size).map (fun f => { f with install := true }) := by
  rw [flag_all_getFiles]
  exact lookupA_map_val (fam.getFiles t) (fun f => { f with install := true }) size

/-! ### Lemmas for the repo-level flagging loop -/

theorem flagPhaseStep_other (fs : FS) (acc : Fams × Fams) (name n : String)
    (h : n ≠ name) :
    lookupA (flagPhaseStep fs acc name).1 n = lookupA acc.1 n
    ∧ lookupA (flagPhaseStep fs acc name).2 n = lookupA acc.2 n := by
  unfold flagPhaseStep
  cases lookupA acc.1 name with
  | none => exact ⟨rfl, rfl⟩
  | some rf =>
      cases lookupA acc.2 name with
      | none => exact ⟨lookupA_insertA_ne _ _ _ _ h, rfl⟩
      | some tf => exact ⟨lookupA_insertA_ne _ _ _ _ h, lookupA_insertA_ne _ _ _ _ h⟩

theorem flagPhaseFold_other (fs : FS) :
    ∀ (names : List String) (acc : Fams × Fams) (n : String), n ∉ names →
    lookupA (names.foldl (flagPhaseStep fs) acc).1 n = lookupA acc.1 n
    ∧ lookupA (names.foldl (flagPhaseStep fs) acc).2 n = lookupA acc.2 n := by
  intro names
  induction names with
  | nil => intro acc n _; exact ⟨rfl, rfl⟩
  | cons m rest ih =>
      intro acc n hn
      simp only [List.mem_cons, not_or] at hn
      rw [List.foldl_cons]
      obtain ⟨e1, e2⟩ := ih (flagPhaseStep fs acc m) n hn.2
      obtain ⟨s1, s2⟩ := flagPhaseStep_other fs acc m n hn.1
      exact ⟨by rw [e1, s1], by rw [e2, s2]⟩

theorem flagPhaseFold_lookup (fs : FS) :
    ∀ (names : List String), names.Nodup →
    ∀ (A B : Fams) (n : String) (fam : MusicFontFamily),
    n ∈ names → lookupA A n = some fam →
    lookupA (names.foldl (flagPhaseStep fs) (A, B)).1 n
      = some (match lookupA B n with
              | none => fam.flag_all_for_install
              | some tf => (fam.flag_for_install tf fs).1) := by
  intro names
  induction names with
  | nil => intro _ A B n fam h; simp at h
  | cons m rest ih =>
      intro hnd A B n fam hmem hA
      obtain ⟨hm, hnd'⟩ := List.nodup_cons.mp hnd
      rw [List.foldl_cons]
      rcases List.mem_cons.mp hmem with h1 | h1
      · subst h1
        have hstep : flagPhaseStep fs (A, B) n
            = (match lookupA B n with
               | none => (insertA A n fam.flag_all_for_install, B)
               | some tf => (insertA A n (fam.flag_for_install tf fs).1,
                   insertA B n (fam.flag_for_install tf fs).2)) := by
          unfold flagPhaseStep
          rw [show lookupA (A, B).1 n = some fam from hA]
        cases hB : lookupA B n with
        | none =>
            rw [hB] at hstep
            rw [hstep, (flagPhaseFold_other fs rest _ n hm).1, lookupA_insertA_self]
        | some tf =>
            rw [hB] at hstep
            rw [hstep, (flagPhaseFold_other fs rest _ n hm).1, lookupA_insertA_self]
      · have hne : n ≠ m := fun hh => hm (hh ▸ h1)
        obtain ⟨s1, s2⟩ := flagPhaseStep_other fs (A, B) m n hne
        have ihx := ih hnd' (flagPhaseStep fs (A, B) m).1 (flagPhaseStep fs (A, B) m).2
          n fam h1 (by rw [s1]; exact hA)
        rw [s2] at ihx
        exact ihx

/-- The flagging loop's effect on one repo family, against the original
installed registry. -/
theorem flagPhase_lookup (repo installed : Fams) (fs : FS)
    (hkeys : (repo.map Prod.fst).Nodup) (name : String) (fam : MusicFontFamily)
    (h1 : lookupA repo name = some fam) :
    lookupA (flagPhase repo installed fs).1 name
      = some (match lookupA installed name with
              | none => fam.flag_all_for_install
              | some tf => (fam.flag_for_install tf fs).1) := by
  unfold flagPhase
  have hmem : name ∈ repo.map Prod.fst := by
    have := mem_of_lookupA _ _ _ h1
    exact List.mem_map.mpr ⟨(name, fam), this, rfl⟩
  exact flagPhaseFold_lookup fs (repo.map Prod.fst) hkeys repo installed name fam hmem h1

/-- C4: `flag_for_install(target_family)` sets install on exactly those
`(type, size)` entries whose own status is FILE or LINK while the target's
slot status is not FILE or LINK (other entries keep their previous flag); in
particular, the repo-level flagging loop flags every file of a source family
whose name the installed registry lacks (via `flag_all_for_install`), and
when the target already has every slot as FILE or LINK, no file of an
unflagged family becomes flagged. -/
theorem flag_for_install_spec (fs : FS) :
    (∀ (self target : MusicFontFamily),
      (∀ t : FontType, ((self.getFiles t).map Prod.fst).Nodup) →
      ∀ (t : FontType) (size : String) (f : MusicFontFile),
      lookupA (self.getFiles t) size = some f →
      ∃ f', lookupA ((self.flag_for_install target fs).1.getFiles t) size = some f'
        ∧ f'.file = f.file
        ∧ (f'.install = true ↔ (f.install = true
            ∨ ((slotStatusOf fs (some f) = .FILE ∨ slotStatusOf fs (some f) = .LINK)
              ∧ ¬((target.status t size fs).1 = .FILE
                ∨ (target.status t size fs).1 = .LINK)))))
    ∧ (∀ (repo installed : Fams), (repo.map Prod.fst).Nodup →
        ∀ (name : String) (fam : MusicFontFamily),
        lookupA repo name = some fam → lookupA installed name = none →
        lookupA (flagPhase repo installed fs).1 name = some fam.flag_all_for_install
        ∧ ∀ (t : FontType) (size : String) (f : MusicFontFile),
            lookupA (fam.getFiles t) size = some f →
            lookupA (fam.flag_all_for_install.getFiles t) size
              = some { f with install := true })
    ∧ (∀ (self target : MusicFontFamily),
        (∀ t : FontType, ((self.getFiles t).map Prod.fst).Nodup) →
        (∀ (t : FontType) (size : String) (f : MusicFontFile),
            lookupA (self.getFiles t) size = some f → f.install = false) →
        (∀ (t : FontType) (size : String), (lookupA (self.getFiles t) size).isSome →
            (target.status t size fs).1 = .FILE ∨ (target.status t size fs).1 = .LINK) →
        ∀ (t : FontType) (size : String) (f' : MusicFontFile),
          lookupA ((self.flag_for_install target fs).1.getFiles t) size = some f' →
          f'.install = false) := by
  refine ⟨?_, ?_, ?_⟩
  · intro self target hnodup t size f hf
    rw [flag_for_install_char self target fs hnodup t size, hf]
    refine ⟨flagFileUpd fs ((target.status t size fs).1) f, rfl, ?_, ?_⟩
    · exact flagFileUpd_file fs _ f
    · exact flagFileUpd_install fs _ f
  · intro repo installed hkeys name fam h1 h2
    constructor
    · rw [flagPhase_lookup repo installed fs hkeys name fam h1, h2]
    · intro t size f hf
      rw [lookupA_flag_all, hf]
      rfl
  · intro self target hnodup hall hfull t size f' hf'
    rw [flag_for_install_char self target fs hnodup t size] at hf'
    cases hl : lookupA (self.getFiles t) size with
    | none => rw [hl] at hf'; simp at hf'
    | some f =>
        rw [hl] at hf'
        simp only [Option.map_some'] at hf'
        have hfe := Option.some.inj hf'
        have hm : (target.status t size fs).1 = .FILE
            ∨ (target.status t size fs).1 = .LINK := hfull t size (by rw [hl]; rfl)
        have hin : f.install = false := hall t size f hl
        cases hi : f'.install with
        | false => rfl
        | true =>
            have := (flagFileUpd_install fs ((target.status t size fs).1) f).mp
              (by rw [hfe]; exact hi)
            rcases this with h | h
            · rw [hin] at h; exact absurd h (by simp)
            · exact absurd hm h.2

theorem flag_for_install_spec_witness :
    ∃ f', lookupA ((famC.flag_for_install MusicFontFamily.empty fsEx4).1.getFiles .otf)
        "11" = some f'
      ∧ f'.file = "/r/c-11.otf"
      ∧ (f'.install = true
        ↔ ((⟨"/r/c-11.otf", none, false⟩ : MusicFontFile).install = true
          ∨ ((slotStatusOf fsEx4 (some ⟨"/r/c-11.otf", none, false⟩) = .FILE
              ∨ slotStatusOf fsEx4 (some ⟨"/r/c-11.otf", none, false⟩) = .LINK)
            ∧ ¬((MusicFontFamily.empty.status .otf "11" fsEx4).1 = .FILE
              ∨ (MusicFontFamily.empty.status .otf "11" fsEx4).1 = .LINK)))) :=
  (flag_for_install_spec fsEx4).1 famC MusicFontFamily.empty
    (by intro t; cases t <;> decide) .otf "11"
    ⟨"/r/c-11.otf", none, false⟩ (by decide)

theorem famsAddFile_check (X : Fams) (fs : FS) (p : String) (Y : Fams)
    (h : famsAddFile X fs p = .ok Y) :
    ∃ trip, MusicFontFamily.check_file fs p = .ok trip := by
  cases hchk : MusicFontFamily.check_file fs p with
  | ok trip => exact ⟨trip, rfl⟩
  | error e =>
      have herr : famsAddFile X fs p = .error e := by
        unfold famsAddFile
        rw [hchk]
      rw [herr] at h
      exact Except.noConfusion h

theorem famsAddFiles_ok (fs : FS) : ∀ (l : List String) (X Y : Fams),
    famsAddFiles X fs l = .ok Y →
    Y = famsAddTree X fs l
    ∧ ∀ p ∈ l, ∃ trip, MusicFontFamily.check_file fs p = .ok trip := by
  intro l
  induction l with
  | nil =>
      intro X Y h
      exact ⟨(Except.ok.inj h).symm, by simp⟩
  | cons p rest ih =>
      intro X Y h
      unfold famsAddFiles at h
      cases hadd : famsAddFile X fs p with
      | error e => rw [hadd] at h; exact Except.noConfusion h
      | ok X2 =>
          rw [hadd] at h
          obtain ⟨hY, hch⟩ := ih X2 Y h
          have hsil : famsAddFileSilent X fs p = X2 := by
            unfold famsAddFileSilent
            rw [hadd]
          refine ⟨?_, ?_⟩
          · rw [hY, show famsAddTree X fs (p :: rest)
              = famsAddTree (famsAddFileSilent X fs p) fs rest from rfl, hsil]
          · intro q hq
            rcases List.mem_cons.mp hq with h1 | h1
            · subst h1
              exact famsAddFile_check X fs q X2 hadd
            · exact hch q h1

theorem mem_flaggedFiles (fams : Fams) (name : String) (fam : MusicFontFamily)
    (t : FontType) (size : String) (f : MusicFontFile)
    (h1 : lookupA fams name = some fam) (h2 : lookupA (fam.getFiles t) size = some f)
    (h3 : f.install = true) : f.file ∈ flaggedFiles fams := by
  unfold flaggedFiles
  apply List.mem_filterMap.mpr
  refine ⟨⟨name, t, size, f⟩, ?_, by simp [h3]⟩
  unfold famsWalk
  apply List.mem_flatMap.mpr
  refine ⟨name, List.mem_map.mpr ⟨(name, fam), mem_of_lookupA _ _ _ h1, rfl⟩, ?_⟩
  rw [h1]
  apply List.mem_map.mpr
  refine ⟨(t, size, f), ?_, rfl⟩
  unfold MusicFontFamily.walk
  apply List.mem_flatMap.mpr
  refine ⟨t, by cases t <;> simp [fontTypes], ?_⟩
  exact List.mem_map.mpr ⟨(size, f), mem_of_lookupA _ _ _ h2, rfl⟩

/-- C10: flagging is monotone: `MusicFontRepo.flag_for_install` never resets
an install flag, so a file already flagged before a (successful) second
flagging pass against a new target stays flagged — even if it is present as
FILE or LINK in that target — and is re-ingested into the rebuilt
`installable_fonts` registry. -/
theorem install_flags_monotone (repo : MusicFontRepo) (installed : Fams) (fs : FS)
    (repo2 : MusicFontRepo) (installed2 : Fams)
    (hok : repo.flag_for_install installed fs = .ok (repo2, installed2))
    (hkeys : (repo.fams.map Prod.fst).Nodup)
    (name : String) (fam : MusicFontFamily)
    (hfam : lookupA repo.fams name = some fam)
    (hnodupFam : ∀ t : FontType, ((fam.getFiles t).map Prod.fst).Nodup)
    (t : FontType) (size : String) (f : MusicFontFile)
    (hslot : lookupA (fam.getFiles t) size = some f)
    (hinst : f.install = true)
    (hinj : ∀ p ∈ flaggedFiles (flagPhase repo.fams installed fs).1,
        ∀ q ∈ flaggedFiles (flagPhase repo.fams installed fs).1,
        MusicFontFamily.check_file fs p = MusicFontFamily.check_file fs q → p = q) :
    (∃ fam2 f2, lookupA repo2.fams name = some fam2
      ∧ lookupA (fam2.getFiles t) size = some f2
      ∧ f2.file = f.file ∧ f2.install = true)
    ∧ (∃ name2 t2 size2 g,
        famsSlotVal repo2.installable_fonts name2 t2 size2 = some g
        ∧ g.file = f.file) := by
  unfold MusicFontRepo.flag_for_install at hok
  cases hadd : famsAddFiles [] fs (flaggedFiles (flagPhase repo.fams installed fs).1) with
  | error e => rw [hadd] at hok; exact Except.noConfusion hok
  | ok instf =>
      rw [hadd] at hok
      have hpair := Except.ok.inj hok
      have e1 : repo2 = { repo with
          fams := (flagPhase repo.fams installed fs).1
          installable_fonts := instf } := (congrArg Prod.fst hpair).symm
      have hfams2 : repo2.fams = (flagPhase repo.fams installed fs).1 := by rw [e1]
      have hinst2 : repo2.installable_fonts = instf := by rw [e1]
      have hph := flagPhase_lookup repo.fams installed fs hkeys name fam hfam
      -- the slot after the flagging loop
      have hmain : ∃ fam2 f2, lookupA repo2.fams name = some fam2
          ∧ lookupA (fam2.getFiles t) size = some f2
          ∧ f2.file = f.file ∧ f2.install = true := by
        cases hB : lookupA installed name with
        | none =>
            rw [hB] at hph
            refine ⟨fam.flag_all_for_install, { f with install := true }, ?_, ?_, rfl, rfl⟩
            · rw [hfams2]
              exact hph
            · rw [lookupA_flag_all, hslot]
              rfl
        | some tf =>
            rw [hB] at hph
            refine ⟨(fam.flag_for_install tf fs).1,
              flagFileUpd fs ((tf.status t size fs).1) f, ?_, ?_, ?_, ?_⟩
            · rw [hfams2]
              exact hph
            · rw [flag_for_install_char fam tf fs hnodupFam t size, hslot]
              rfl
            · exact flagFileUpd_file fs _ f
            · exact (flagFileUpd_install fs _ f).mpr (Or.inl hinst)
      obtain ⟨fam2, f2, hl2, hs2, hfile2, hi2⟩ := hmain
      refine ⟨⟨fam2, f2, hl2, hs2, hfile2, hi2⟩, ?_⟩
      -- membership of the flagged file in the rebuild input
      have hmem : f.file ∈ flaggedFiles (flagPhase repo.fams installed fs).1 := by
        rw [← hfile2]
        refine mem_flaggedFiles _ name fam2 t size f2 ?_ hs2 hi2
        rw [← hfams2]
        exact hl2
      obtain ⟨hYeq, hcheck⟩ := famsAddFiles_ok fs _ [] instf hadd
      obtain ⟨trip0, htrip0⟩ := hcheck f.file hmem
      obtain ⟨n2, t2, s2⟩ := trip0
      obtain ⟨ps1, q, ps2, heqps, hq, hnw⟩ := exists_last_writer
        (fun p => MusicFontFamily.check_file fs p = .ok (n2, t2, s2)) _
        ⟨f.file, hmem, htrip0⟩
      have hqmem : q ∈ flaggedFiles (flagPhase repo.fams installed fs).1 := by
        rw [heqps]
        exact List.mem_append_right _ (List.mem_cons_self q ps2)
      have hqp : q = f.file := hinj q hqmem f.file hmem (by rw [hq, htrip0])
      have hslot2 : famsSlotVal (famsAddTree [] fs
            (flaggedFiles (flagPhase repo.fams installed fs).1)) n2 t2 s2
          = some ⟨q, none, false⟩ := by
        rw [heqps]
        exact tree_slot_lastwriter fs n2 t2 s2 ps1 q ps2 [] hq hnw
      refine ⟨n2, t2, s2, ⟨q, none, false⟩, ?_, hqp⟩
      rw [hinst2, hYeq]
      exact hslot2

theorem install_flags_monotone_witness :
    repoW.flag_for_install [] fsW = .ok (repo2W, [])
    ∧ ((∃ fam2 f2, lookupA repo2W.fams "foo" = some fam2
          ∧ lookupA (fam2.getFiles .otf) "11" = some f2
          ∧ f2.file = fW.file ∧ f2.install = true)
        ∧ (∃ name2 t2 size2 g,
            famsSlotVal repo2W.installable_fonts name2 t2 size2 = some g
            ∧ g.file = fW.file)) :=
  ⟨rfl, install_flags_monotone repoW [] fsW repo2W [] rfl (by decide) "foo" famW rfl
    (by intro t; cases t <;> decide) .otf "11" fW rfl rfl
    (by
      intro p hp q hq _
      have e : flaggedFiles (flagPhase repoW.fams [] fsW).1 = ["/r/foo-11.otf"] := rfl
      rw [e] at hp hq
      rw [List.mem_singleton.mp hp, List.mem_singleton.mp hq])⟩
